import Mathlib

/-! # A verified model of the Squaredle solver core

Shallow embedding of `src/script.js`: the lexicon built by `init` and the
search algorithm `findWords`/`dfs`, together with the auxiliary notions the
specification talks about. -/

namespace SquaredleSolver

/-- A grid is a list of rows of single-character cells (source: `parseGrid` output,
`text.split('\n').map(row => row.split(''))`). -/
abbrev Grid := List (List Char)

/-- A path is the ordered list of `(x, y)` cell coordinates (source: the `path`
array of `{x, y}` objects threaded through `dfs`). -/
abbrev GPath := List (Int × Int)

/-- The word-to-path store (source: `const words = new Map()` in `findWords`);
a JavaScript `Map` is an insertion-ordered association list whose `set` replaces
the value of an existing key in place. -/
abbrev WordsMap := List (String × GPath)

/-- Model of JavaScript `String.prototype.toLowerCase` for the ASCII range:
each character is lowercased individually. -/
def jsToLower (s : String) : String := ⟨s.data.map Char.toLower⟩

/-- Model of JavaScript `String.prototype.trim` for ASCII whitespace: strip
whitespace characters from both ends. -/
def jsTrim (s : String) : String :=
  ⟨((s.data.dropWhile Char.isWhitespace).reverse.dropWhile Char.isWhitespace).reverse⟩

/-- A grid cell is usable unless it trims to the empty string (source:
`!grid[nx][ny].trim()` skips blank cells; a one-character string trims to `""`
exactly when the character is whitespace). -/
def cellUsable (c : Char) : Bool := !(jsTrim (String.singleton c) == "")

/-- The visited-set key of a coordinate (source: the template literal `` `${x},${y}` ``). -/
def coordKey (x y : Int) : String := toString x ++ "," ++ toString y

/-- JavaScript `Map.prototype.set`: replace the value of an existing key in place,
otherwise append the new entry at the end. -/
def mapSet (m : WordsMap) (k : String) (v : GPath) : WordsMap :=
  match m with
  | [] => [(k, v)]
  | (k', v') :: rest => if k' = k then (k, v) :: rest else (k', v') :: mapSet rest k v

/-- The eight neighbour offsets, in source order (source: `directions` in `findWords`). -/
def directions : List (Int × Int) :=
  [(-1, -1), (-1, 0), (-1, 1), (0, -1), (0, 1), (1, -1), (1, 0), (1, 1)]

/-- The length of row `x` of the grid (source: `grid[nx].length`; rows may be ragged). -/
def rowLen (g : Grid) (x : Int) : Nat := (g.getD x.toNat []).length

/-- The character stored at `(x, y)` (source: `grid[nx][ny]`; only read behind the
bounds checks, so the defaults are never relevant). -/
def cellAt (g : Grid) (x y : Int) : Char := (g.getD x.toNat []).getD y.toNat ' '

/-- The neighbour-skipping test of the inner `dfs` loop (source: the `continue`
condition — out of bounds, blank cell, or already visited). -/
def skipMove (g : Grid) (visited : List String) (nx ny : Int) : Bool :=
  decide (nx < 0) || decide (ny < 0) || decide ((g.length : Int) ≤ nx) ||
  decide ((rowLen g nx : Int) ≤ ny) || !(cellUsable (cellAt g nx ny)) ||
  visited.contains (coordKey nx ny)

/-- The visited-set keys of all usable in-bounds cells of the grid; its length is the
number of usable cells, the quantity that bounds the search depth. -/
def usableKeys (g : Grid) : List String :=
  (List.range g.length).flatMap fun i =>
    (List.range (g.getD i []).length).filterMap fun j =>
      if cellUsable ((g.getD i []).getD j ' ') then some (coordKey i j) else none

/-- Number of usable cells whose key is not yet in the visited set: the termination
measure of the search. -/
def unvisitedCount (g : Grid) (visited : List String) : Nat :=
  (usableKeys g).countP fun k => !visited.contains k

theorem contains_iff {α : Type} [BEq α] [LawfulBEq α] (l : List α) (a : α) :
    l.contains a = true ↔ a ∈ l := by
  show l.elem a = true ↔ a ∈ l
  exact List.elem_iff

theorem countP_lt_countP {α : Type} (p q : α → Bool) (l : List α) (a : α)
    (ha : a ∈ l) (hpa : p a = true) (hqa : q a = false)
    (himp : ∀ b, q b = true → p b = true) : l.countP q < l.countP p := by
  induction l with
  | nil => cases ha
  | cons x xs ih =>
    rw [List.countP_cons, List.countP_cons]
    rcases List.mem_cons.mp ha with rfl | ha'
    · have hle : xs.countP q ≤ xs.countP p :=
        List.countP_mono_left (fun b _ hb => himp b hb)
      rw [if_pos hpa, if_neg (by simp [hqa])]
      omega
    · have hlt := ih ha'
      have hif : (if q x = true then 1 else 0) ≤ if p x = true then 1 else 0 := by
        by_cases hq : q x = true
        · rw [hq, himp x hq]
        · rw [if_neg hq]
          split <;> omega
      omega

/-- If the skip test fails, the neighbour is a usable in-bounds unvisited cell. -/
theorem skipMove_false {g : Grid} {visited : List String} {nx ny : Int}
    (h : skipMove g visited nx ny = false) :
    0 ≤ nx ∧ 0 ≤ ny ∧ nx < (g.length : Int) ∧ ny < (rowLen g nx : Int) ∧
    cellUsable (cellAt g nx ny) = true ∧ visited.contains (coordKey nx ny) = false := by
  rw [skipMove] at h
  simp only [Bool.or_eq_false_iff, decide_eq_false_iff_not, Bool.not_eq_false'] at h
  obtain ⟨⟨⟨⟨⟨h1, h2⟩, h3⟩, h4⟩, h5⟩, h6⟩ := h
  exact ⟨by omega, by omega, by omega, by omega, h5, h6⟩

theorem coordKey_mem_usableKeys {g : Grid} {nx ny : Int}
    (h0 : 0 ≤ nx) (h1 : 0 ≤ ny) (h2 : nx < (g.length : Int)) (h3 : ny < (rowLen g nx : Int))
    (h4 : cellUsable (cellAt g nx ny) = true) : coordKey nx ny ∈ usableKeys g := by
  rw [usableKeys, List.mem_flatMap]
  refine ⟨nx.toNat, by rw [List.mem_range]; omega, ?_⟩
  rw [List.mem_filterMap]
  refine ⟨ny.toNat, by rw [List.mem_range]; rw [rowLen] at h3; omega, ?_⟩
  rw [Int.toNat_of_nonneg h0, Int.toNat_of_nonneg h1]
  rw [cellAt] at h4
  rw [if_pos h4]

theorem unvisitedCount_lt {g : Grid} {visited : List String} {nx ny : Int}
    (h : skipMove g visited nx ny = false) :
    unvisitedCount g (visited ++ [coordKey nx ny]) < unvisitedCount g visited := by
  obtain ⟨h0, h1, h2, h3, h4, h5⟩ := skipMove_false h
  refine countP_lt_countP _ _ _ (coordKey nx ny)
    (coordKey_mem_usableKeys h0 h1 h2 h3 h4) ?_ ?_ ?_
  · rw [Bool.not_eq_true', h5]
  · rw [Bool.not_eq_false']
    rw [contains_iff]
    exact List.mem_append_right _ (List.mem_singleton.mpr rfl)
  · intro b hb
    rw [Bool.not_eq_true'] at hb ⊢
    rw [Bool.eq_false_iff] at hb ⊢
    intro hc
    exact hb (by rw [contains_iff] at hc ⊢; exact List.mem_append_left _ hc)

/-- The lexicon: the two membership sets built from the word list (source: the
module-level `dictionary` and `prefixDictionary` sets; a JavaScript `Set` is
modelled by the list of added elements, queried with `contains`). -/
structure Lexicon where
  words : List String
  prefixes : List String
deriving DecidableEq

mutual

/-- The recursive search (source: `dfs` in `findWords`): prune on the prefix set,
record the word if complete, then try the eight directions in order. -/
def dfs (lex : Lexicon) (g : Grid) (x y : Int) (path : GPath) (word : String)
    (visited : List String) (words : WordsMap) : WordsMap :=
  let normalized := jsToLower word
  if !(lex.prefixes.contains normalized) then words
  else
    let words1 := if lex.words.contains normalized then mapSet words word path else words
    dfsLoop lex g x y path word visited words1 directions
termination_by 9 * unvisitedCount g visited + 9
decreasing_by
  simp only [directions, List.length_cons, List.length_nil]
  omega

/-- The `for (const [dx, dy] of directions)` loop of `dfs`, over the directions
not yet tried. -/
def dfsLoop (lex : Lexicon) (g : Grid) (x y : Int) (path : GPath) (word : String)
    (visited : List String) (words : WordsMap) (dirs : List (Int × Int)) : WordsMap :=
  match dirs with
  | [] => words
  | (dx, dy) :: rest =>
    let nx := x + dx
    let ny := y + dy
    if h : skipMove g visited nx ny then
      dfsLoop lex g x y path word visited words rest
    else
      dfsLoop lex g x y path word visited
        (dfs lex g nx ny (path ++ [(nx, ny)]) (word.push (cellAt g nx ny))
          (visited ++ [coordKey nx ny]) words) rest
termination_by 9 * unvisitedCount g visited + dirs.length
decreasing_by
  · simp only [List.length_cons]
    omega
  · have hf : skipMove g visited (x + dx) (y + dy) = false := by
      cases hsm : skipMove g visited (x + dx) (y + dy)
      · rfl
      · exact absurd hsm h
    have hlt := unvisitedCount_lt hf
    simp only [List.length_cons]
    omega
  · simp only [List.length_cons]
    omega

end

/-- Fuel-indexed body of the direction loop: `step` is the recursive search at one
less nesting depth; `none` signals fuel exhaustion somewhere below. -/
def dfsLoopF (step : Int → Int → GPath → String → List String → WordsMap → Option WordsMap)
    (g : Grid) (x y : Int) (path : GPath) (word : String) (visited : List String)
    (words : WordsMap) : List (Int × Int) → Option WordsMap
  | [] => some words
  | (dx, dy) :: rest =>
    if skipMove g visited (x + dx) (y + dy) then
      dfsLoopF step g x y path word visited words rest
    else
      match step (x + dx) (y + dy) (path ++ [(x + dx, y + dy)])
          (word.push (cellAt g (x + dx) (y + dy)))
          (visited ++ [coordKey (x + dx) (y + dy)]) words with
      | none => none
      | some words2 => dfsLoopF step g x y path word visited words2 rest

/-- Fuel-indexed mirror of `dfs`: identical body, but every nesting level consumes
one unit of fuel, so a `some` result certifies a bound on the recursion depth. -/
def dfsF (lex : Lexicon) (g : Grid) :
    Nat → Int → Int → GPath → String → List String → WordsMap → Option WordsMap
  | 0, _, _, _, _, _, _ => none
  | fuel + 1, x, y, path, word, visited, words =>
    if !(lex.prefixes.contains (jsToLower word)) then some words
    else
      dfsLoopF (dfsF lex g fuel) g x y path word visited
        (if lex.words.contains (jsToLower word) then mapSet words word path else words)
        directions


/-- Ordinal (code-point-wise lexicographic) comparison of two weight lists. -/
def listOrdCompare : List Nat → List Nat → Int
  | [], [] => 0
  | [], _ :: _ => -1
  | _ :: _, [] => 1
  | a :: as, b :: bs => if a < b then -1 else if b < a then 1 else listOrdCompare as bs

/-- The collation key of a string: primary weights (case-insensitive code points)
followed by tertiary case weights (lowercase before uppercase). -/
def collationKey (s : String) : List Nat :=
  s.data.map (fun c => c.toLower.toNat) ++ s.data.map (fun c => if c.isLower then 0 else 1)

/-- Model of `String.prototype.localeCompare` under the default root collation,
restricted to ASCII letter strings: letters compare case-insensitively first, and
a lowercase letter sorts before the same uppercase letter. -/
def localeCompare (a b : String) : Int := listOrdCompare (collationKey a) (collationKey b)

/-- The sort comparator of `findWords` (source:
`(a, b) => a[0].length - b[0].length || a[0].localeCompare(b[0])`). -/
def jsCmp (a b : String × GPath) : Int :=
  let d : Int := (a.1.length : Int) - (b.1.length : Int)
  if d ≠ 0 then d else localeCompare a.1 b.1

/-- Stable insertion of an element into a comparator-sorted list: the new element
goes after every element that does not compare strictly greater. -/
def insertCmp {α : Type} (cmp : α → α → Int) (x : α) : List α → List α
  | [] => [x]
  | y :: ys => if cmp y x ≤ 0 then y :: insertCmp cmp x ys else x :: y :: ys

/-- Stable comparator sort, the behaviour of `Array.prototype.sort` with a
consistent comparator. -/
def sortByCmp {α : Type} (cmp : α → α → Int) (l : List α) : List α :=
  l.foldl (fun acc x => insertCmp cmp x acc) []

/-- One start cell of the outer iteration of `findWords` (source: the body of
`row.forEach((char, j) => ...)`): if the cell is usable, search from it. -/
def startCell (lex : Lexicon) (g : Grid) (i j : Nat) (w : WordsMap) : WordsMap :=
  let ch := (g.getD i []).getD j ' '
  if cellUsable ch then
    dfs lex g i j [((i : Int), (j : Int))] (String.singleton ch) [coordKey i j] w
  else w

/-- The per-start-cell iteration of `findWords` (source: the nested
`grid.forEach((row, i) => row.forEach((char, j) => ...))`), producing the word map
in insertion order. -/
def findWordsMap (lex : Lexicon) (g : Grid) : WordsMap :=
  (List.range g.length).foldl (fun words i =>
    (List.range (g.getD i []).length).foldl (fun w j => startCell lex g i j w) words) []

/-- The solver core (source: `findWords`): run the search from every usable cell in
row-major order, then sort by length and then by the locale comparison. -/
def findWords (lex : Lexicon) (g : Grid) : List (String × GPath) :=
  sortByCmp jsCmp (findWordsMap lex g)

/-- Fuel-indexed mirror of `startCell`. -/
def startCellF (lex : Lexicon) (g : Grid) (fuel : Nat) (i j : Nat) (w : WordsMap) :
    Option WordsMap :=
  let ch := (g.getD i []).getD j ' '
  if cellUsable ch then
    dfsF lex g fuel i j [((i : Int), (j : Int))] (String.singleton ch) [coordKey i j] w
  else some w

/-- Fuel-indexed mirror of `findWordsMap`. -/
def findWordsMapF (lex : Lexicon) (g : Grid) (fuel : Nat) : Option WordsMap :=
  (List.range g.length).foldl (fun acc i =>
    (List.range (g.getD i []).length).foldl (fun acc2 j =>
      acc2.bind (startCellF lex g fuel i j)) acc) (some [])

/-- Fuel-indexed mirror of `findWords`. -/
def findWordsF (lex : Lexicon) (g : Grid) (fuel : Nat) : Option (List (String × GPath)) :=
  (findWordsMapF lex g fuel).map (sortByCmp jsCmp)

/-- The number of usable cells of the grid. -/
def usableCount (g : Grid) : Nat := (usableKeys g).length

/-- The list of nonempty prefixes of a word, shortest first (source: the
`for (const char of word)` loop of `init` that feeds `prefixDictionary`). -/
def prefixesOf (w : String) : List String :=
  (w.data.foldl (fun (acc : String × List String) c =>
    (acc.1.push c, acc.2 ++ [acc.1.push c])) ("", [])).2

/-- Processing of one dictionary line (source: the `forEach` body of `init`): trim
and lowercase, skip if empty, otherwise record the word and all of its nonempty
prefixes. -/
def addLine (lex : Lexicon) (line : String) : Lexicon :=
  let word := jsToLower (jsTrim line)
  if word = "" then lex
  else { words := lex.words ++ [word], prefixes := lex.prefixes ++ prefixesOf word }

/-- The dictionary build (source: the split-lines `forEach` loop of `init`). -/
def buildLexicon (lines : List String) : Lexicon := lines.foldl addLine ⟨[], []⟩


theorem coordKey_mem_usableKeys_nat {g : Grid} {i j : Nat} (hi : i < g.length)
    (hj : j < (g.getD i []).length) (hu : cellUsable ((g.getD i []).getD j ' ') = true) :
    coordKey i j ∈ usableKeys g := by
  rw [usableKeys, List.mem_flatMap]
  refine ⟨i, List.mem_range.mpr hi, ?_⟩
  rw [List.mem_filterMap]
  refine ⟨j, List.mem_range.mpr hj, ?_⟩
  rw [if_pos hu]

theorem unvisitedCount_lt_usableCount {g : Grid} {k : String} (hk : k ∈ usableKeys g) :
    unvisitedCount g [k] < usableCount g := by
  have h := countP_lt_countP (fun _ => true) (fun s => !([k].contains s)) (usableKeys g) k hk
    rfl (by simp) (fun b _ => rfl)
  rw [unvisitedCount, usableCount]
  rw [List.countP_true] at h
  exact h

/-- With the recursive step available at one less depth and enough unvisited budget,
the fuel-indexed direction loop computes the well-founded one. -/
theorem dfsLoopF_eq (lex : Lexicon) (g : Grid) (fuel : Nat)
    (IH : ∀ x y path word visited words, unvisitedCount g visited < fuel →
      dfsF lex g fuel x y path word visited words
        = some (dfs lex g x y path word visited words)) :
    ∀ (dirs : List (Int × Int)) (x y : Int) (path : GPath) (word : String)
      (visited : List String) (words : WordsMap),
      unvisitedCount g visited < fuel + 1 →
      dfsLoopF (dfsF lex g fuel) g x y path word visited words dirs
        = some (dfsLoop lex g x y path word visited words dirs) := by
  intro dirs
  induction dirs with
  | nil =>
    intro x y path word visited words _
    rw [dfsLoop, dfsLoopF]
  | cons d rest ih =>
    obtain ⟨dx, dy⟩ := d
    intro x y path word visited words hv
    rw [dfsLoop]
    show (if skipMove g visited (x + dx) (y + dy) = true then
        dfsLoopF (dfsF lex g fuel) g x y path word visited words rest
      else
        match dfsF lex g fuel (x + dx) (y + dy) (path ++ [(x + dx, y + dy)])
            (word.push (cellAt g (x + dx) (y + dy)))
            (visited ++ [coordKey (x + dx) (y + dy)]) words with
        | none => none
        | some words2 => dfsLoopF (dfsF lex g fuel) g x y path word visited words2 rest)
      = some (if h : skipMove g visited (x + dx) (y + dy) = true then
          dfsLoop lex g x y path word visited words rest
        else
          dfsLoop lex g x y path word visited
            (dfs lex g (x + dx) (y + dy) (path ++ [(x + dx, y + dy)])
              (word.push (cellAt g (x + dx) (y + dy)))
              (visited ++ [coordKey (x + dx) (y + dy)]) words) rest)
    by_cases hsm : skipMove g visited (x + dx) (y + dy) = true
    · rw [if_pos hsm, dif_pos hsm]
      exact ih x y path word visited words hv
    · rw [if_neg hsm, dif_neg hsm]
      rw [Bool.not_eq_true] at hsm
      have hlt := unvisitedCount_lt hsm
      rw [IH _ _ _ _ _ _ (by omega)]
      exact ih x y path word visited _ hv

/-- With enough fuel for the unvisited usable cells, the fuel-indexed search
computes the well-founded one. -/
theorem dfsF_eq (lex : Lexicon) (g : Grid) :
    ∀ (fuel : Nat) (x y : Int) (path : GPath) (word : String)
      (visited : List String) (words : WordsMap),
      unvisitedCount g visited < fuel →
      dfsF lex g fuel x y path word visited words
        = some (dfs lex g x y path word visited words) := by
  intro fuel
  induction fuel with
  | zero => intro _ _ _ _ _ _ hv; omega
  | succ fuel ih =>
    intro x y path word visited words hv
    rw [dfs]
    show (if (!(lex.prefixes.contains (jsToLower word))) = true then some words
        else dfsLoopF (dfsF lex g fuel) g x y path word visited
          (if lex.words.contains (jsToLower word) = true then mapSet words word path else words)
          directions)
      = some (if (!(lex.prefixes.contains (jsToLower word))) = true then words
        else dfsLoop lex g x y path word visited
          (if lex.words.contains (jsToLower word) = true then mapSet words word path else words)
          directions)
    by_cases hc : (!(lex.prefixes.contains (jsToLower word))) = true
    · rw [if_pos hc, if_pos hc]
    · rw [if_neg hc, if_neg hc]
      exact dfsLoopF_eq lex g fuel ih directions x y path word visited _ hv

/-- An `Option`-threaded fold computes the plain fold when every step does. -/
theorem foldl_option_eq {A B : Type} (l : List B) (f : A → B → A) (F : Option A → B → Option A)
    (h : ∀ b ∈ l, ∀ a, F (some a) b = some (f a b)) :
    ∀ a : A, l.foldl F (some a) = some (l.foldl f a) := by
  induction l with
  | nil => intro a; rfl
  | cons b bs ih =>
    intro a
    simp only [List.foldl_cons]
    rw [h b (List.mem_cons_self b bs) a]
    exact ih (fun c hc a' => h c (List.mem_cons_of_mem b hc) a') (f a b)

theorem startCellF_eq (lex : Lexicon) (g : Grid) {i j : Nat} (hi : i < g.length)
    (hj : j < (g.getD i []).length) (w : WordsMap) :
    startCellF lex g (usableCount g) i j w = some (startCell lex g i j w) := by
  rw [startCellF, startCell]
  by_cases hu : cellUsable ((g.getD i []).getD j ' ') = true
  · rw [if_pos hu, if_pos hu]
    exact dfsF_eq lex g _ _ _ _ _ _ _
      (unvisitedCount_lt_usableCount (coordKey_mem_usableKeys_nat hi hj hu))
  · rw [if_neg hu, if_neg hu]

/-- With fuel equal to the number of usable cells, the fuel-indexed solver computes
the well-founded one: the recursion depth never exceeds the number of usable cells. -/
theorem findWordsMapF_eq (lex : Lexicon) (g : Grid) :
    findWordsMapF lex g (usableCount g) = some (findWordsMap lex g) := by
  rw [findWordsMapF, findWordsMap]
  refine foldl_option_eq _ _ _ ?_ []
  intro i hi w
  refine foldl_option_eq _ _ _ ?_ w
  intro j hj w'
  show (startCellF lex g (usableCount g) i j w')
    = some (startCell lex g i j w')
  exact startCellF_eq lex g (List.mem_range.mp hi) (List.mem_range.mp hj) w'


/-- The fuel bridge including the final sort: fuel equal to the number of usable
cells always suffices. -/
theorem findWordsF_eq (lex : Lexicon) (g : Grid) :
    findWordsF lex g (usableCount g) = some (findWords lex g) := by
  rw [findWordsF, findWords, findWordsMapF_eq]
  rfl

/-- Evaluation helper: a concrete fuel-indexed run determines `findWords`. -/
theorem findWords_eval {lex : Lexicon} {g : Grid} {n : Nat} {L : List (String × GPath)}
    (hn : usableCount g = n) (h : findWordsF lex g n = some L) :
    findWords lex g = L := by
  have hb := findWordsF_eq lex g
  rw [hn, h] at hb
  exact (Option.some.inj hb).symm

/-- **C7.** For a structurally empty grid (zero rows), `findWords` returns the empty
result sequence rather than failing, for every lexicon. -/
theorem c7_empty_grid (lex : Lexicon) : findWords lex [] = [] := rfl

/-- **C8.** Termination and depth bound: capping the recursion depth of `dfs` at the
number of usable cells (the fuel of `findWordsF`) already computes `findWords`
successfully — the visited set strictly grows along every recursive call, so the
nesting depth never exceeds the number of usable cells and the search terminates. -/
theorem c8_termination (lex : Lexicon) (g : Grid) :
    findWordsF lex g (usableCount g) = some (findWords lex g) :=
  findWordsF_eq lex g

/-- **C6.** Pruning precedes all other work at a node: when the lowercased
accumulated word is not in the prefix set, `dfs` returns the result map untouched
(no word is recorded, even if the word is in the complete-word set), and the
depth-1 fuel-indexed run already succeeds, so no neighbour recursion occurs. -/
theorem c6_pruning (lex : Lexicon) (g : Grid) (x y : Int) (path : GPath) (word : String)
    (visited : List String) (words : WordsMap)
    (h : lex.prefixes.contains (jsToLower word) = false) :
    dfs lex g x y path word visited words = words ∧
    dfsF lex g 1 x y path word visited words = some words := by
  constructor
  · rw [dfs]
    show (if (!(lex.prefixes.contains (jsToLower word))) = true then words
      else dfsLoop lex g x y path word visited
        (if lex.words.contains (jsToLower word) = true then mapSet words word path else words)
        directions) = words
    rw [h]
    rfl
  · show (if (!(lex.prefixes.contains (jsToLower word))) = true then some words
      else dfsLoopF (dfsF lex g 0) g x y path word visited
        (if lex.words.contains (jsToLower word) = true then mapSet words word path else words)
        directions) = some words
    rw [h]
    rfl

/-- Witness for C6 at a concrete node: the word "zz" is in the complete-word set of
the (hand-made, closure-violating) lexicon but not in its prefix set, and the
search abandons the branch with the map untouched. -/
theorem c6_pruning_witness :
    (Lexicon.mk ["zz"] []).prefixes.contains (jsToLower "zz") = false ∧
    dfs (Lexicon.mk ["zz"] []) [['Z', 'Z']] 0 0 [(0, 0)] "zz" [coordKey 0 0] [] = [] ∧
    dfsF (Lexicon.mk ["zz"] []) [['Z', 'Z']] 1 0 0 [(0, 0)] "zz" [coordKey 0 0] [] = some [] :=
  ⟨by decide,
   (c6_pruning (Lexicon.mk ["zz"] []) [['Z', 'Z']] 0 0 [(0, 0)] "zz" [coordKey 0 0] []
     (by decide)).1,
   (c6_pruning (Lexicon.mk ["zz"] []) [['Z', 'Z']] 0 0 [(0, 0)] "zz" [coordKey 0 0] []
     (by decide)).2⟩

/-- **C9.** Ragged-row safety: a neighbour whose column index reaches or exceeds its
own row's length makes the skip test of `dfs` fire, so the neighbour is treated as
out-of-bounds and never accessed — grids with rows of unequal length are handled
without error. -/
theorem c9_ragged (g : Grid) (visited : List String) (nx ny : Int)
    (h : (rowLen g nx : Int) ≤ ny) : skipMove g visited nx ny = true := by
  rw [skipMove]
  rw [decide_eq_true h]
  simp

/-- Witness for C9 on a concrete ragged grid: from cell `(1, 0)` of `[['A', 'B'], ['C']]`,
the in-grid coordinate `(1, 1)` lies beyond the second row's extent and is skipped. -/
theorem c9_ragged_witness : skipMove [['A', 'B'], ['C']] [coordKey 1 0] 1 1 = true :=
  c9_ragged [['A', 'B'], ['C']] [coordKey 1 0] 1 1 (by decide)



theorem listOrdCompare_nil_le (cs : List Nat) : listOrdCompare [] cs ≤ 0 := by
  cases cs <;> rw [listOrdCompare] <;> omega

theorem listOrdCompare_trans : ∀ (as bs cs : List Nat),
    listOrdCompare as bs ≤ 0 → listOrdCompare bs cs ≤ 0 → listOrdCompare as cs ≤ 0 := by
  intro as
  induction as with
  | nil => intro bs cs _ _; exact listOrdCompare_nil_le cs
  | cons a as ih =>
    intro bs cs h1 h2
    cases bs with
    | nil => rw [listOrdCompare] at h1; omega
    | cons b bs =>
      cases cs with
      | nil => rw [listOrdCompare] at h2; omega
      | cons c cs =>
        rw [listOrdCompare] at h1 h2 ⊢
        by_cases hab : a < b
        · by_cases hbc : b < c
          · rw [if_pos (show a < c by omega)]; omega
          · by_cases hcb : c < b
            · rw [if_neg hbc, if_pos hcb] at h2; omega
            · rw [if_pos (show a < c by omega)]; omega
        · by_cases hba : b < a
          · rw [if_neg hab, if_pos hba] at h1; omega
          · rw [if_neg hab, if_neg hba] at h1
            by_cases hbc : b < c
            · rw [if_pos (show a < c by omega)]; omega
            · by_cases hcb : c < b
              · rw [if_neg hbc, if_pos hcb] at h2; omega
              · rw [if_neg hbc, if_neg hcb] at h2
                rw [if_neg (show ¬ a < c by omega), if_neg (show ¬ c < a by omega)]
                exact ih bs cs h1 h2

theorem listOrdCompare_total : ∀ (as bs : List Nat),
    listOrdCompare as bs ≤ 0 ∨ listOrdCompare bs as ≤ 0 := by
  intro as
  induction as with
  | nil => intro bs; exact Or.inl (listOrdCompare_nil_le bs)
  | cons a as ih =>
    intro bs
    cases bs with
    | nil => exact Or.inr (listOrdCompare_nil_le (a :: as))
    | cons b bs =>
      rw [listOrdCompare, listOrdCompare]
      by_cases hab : a < b
      · left; rw [if_pos hab]; omega
      · by_cases hba : b < a
        · right; rw [if_pos hba]; omega
        · rw [if_neg hab, if_neg hba, if_neg hba, if_neg hab]
          exact ih bs

theorem jsCmp_le_trans (a b c : String × GPath)
    (h1 : jsCmp a b ≤ 0) (h2 : jsCmp b c ≤ 0) : jsCmp a c ≤ 0 := by
  simp only [jsCmp] at h1 h2 ⊢
  by_cases hab : ((a.1.length : Int) - (b.1.length : Int)) ≠ 0
  · rw [if_pos hab] at h1
    by_cases hbc : ((b.1.length : Int) - (c.1.length : Int)) ≠ 0
    · rw [if_pos hbc] at h2
      rw [if_pos (show ((a.1.length : Int) - (c.1.length : Int)) ≠ 0 by omega)]
      omega
    · rw [if_pos (show ((a.1.length : Int) - (c.1.length : Int)) ≠ 0 by omega)]
      omega
  · rw [if_neg hab] at h1
    by_cases hbc : ((b.1.length : Int) - (c.1.length : Int)) ≠ 0
    · rw [if_pos hbc] at h2
      rw [if_pos (show ((a.1.length : Int) - (c.1.length : Int)) ≠ 0 by omega)]
      omega
    · rw [if_neg hbc] at h2
      rw [if_neg (show ¬ ((a.1.length : Int) - (c.1.length : Int)) ≠ 0 by omega)]
      exact listOrdCompare_trans _ _ _ h1 h2

theorem jsCmp_le_total (a b : String × GPath) : jsCmp a b ≤ 0 ∨ jsCmp b a ≤ 0 := by
  simp only [jsCmp]
  by_cases hab : ((a.1.length : Int) - (b.1.length : Int)) ≠ 0
  · by_cases hlt : (a.1.length : Int) - (b.1.length : Int) ≤ 0
    · left; rw [if_pos hab]; omega
    · right; rw [if_pos (show ((b.1.length : Int) - (a.1.length : Int)) ≠ 0 by omega)]; omega
  · rw [if_neg hab, if_neg (show ¬ ((b.1.length : Int) - (a.1.length : Int)) ≠ 0 by omega)]
    exact listOrdCompare_total _ _

theorem mem_insertCmp {α : Type} (cmp : α → α → Int) (x a : α) :
    ∀ (l : List α), a ∈ insertCmp cmp x l ↔ a = x ∨ a ∈ l := by
  intro l
  induction l with
  | nil => rw [insertCmp]; simp
  | cons y ys ih =>
    rw [insertCmp]
    by_cases hc : cmp y x ≤ 0
    · rw [if_pos hc]
      simp only [List.mem_cons, ih]
      tauto
    · rw [if_neg hc]
      simp only [List.mem_cons]

theorem pairwise_insertCmp {α : Type} (cmp : α → α → Int)
    (htrans : ∀ a b c, cmp a b ≤ 0 → cmp b c ≤ 0 → cmp a c ≤ 0)
    (htotal : ∀ a b, cmp a b ≤ 0 ∨ cmp b a ≤ 0) (x : α) :
    ∀ (l : List α), l.Pairwise (fun a b => cmp a b ≤ 0) →
      (insertCmp cmp x l).Pairwise (fun a b => cmp a b ≤ 0) := by
  intro l
  induction l with
  | nil => intro _; rw [insertCmp]; exact List.pairwise_singleton _ x
  | cons y ys ih =>
    intro hl
    rw [List.pairwise_cons] at hl
    obtain ⟨hy, hys⟩ := hl
    rw [insertCmp]
    by_cases hc : cmp y x ≤ 0
    · rw [if_pos hc]
      rw [List.pairwise_cons]
      refine ⟨?_, ih hys⟩
      intro z hz
      rcases (mem_insertCmp cmp x z ys).mp hz with rfl | hz'
      · exact hc
      · exact hy z hz'
    · rw [if_neg hc]
      have hxy : cmp x y ≤ 0 := by
        rcases htotal y x with h | h
        · exact absurd h hc
        · exact h
      rw [List.pairwise_cons]
      refine ⟨?_, List.pairwise_cons.mpr ⟨hy, hys⟩⟩
      intro z hz
      rcases List.mem_cons.mp hz with rfl | hz'
      · exact hxy
      · exact htrans x y z hxy (hy z hz')

theorem pairwise_sortByCmp {α : Type} (cmp : α → α → Int)
    (htrans : ∀ a b c, cmp a b ≤ 0 → cmp b c ≤ 0 → cmp a c ≤ 0)
    (htotal : ∀ a b, cmp a b ≤ 0 ∨ cmp b a ≤ 0) (l : List α) :
    (sortByCmp cmp l).Pairwise (fun a b => cmp a b ≤ 0) := by
  rw [sortByCmp]
  have hgen : ∀ (l' : List α) (acc : List α),
      acc.Pairwise (fun a b => cmp a b ≤ 0) →
      (l'.foldl (fun acc x => insertCmp cmp x acc) acc).Pairwise (fun a b => cmp a b ≤ 0) := by
    intro l'
    induction l' with
    | nil => intro acc h; exact h
    | cons z zs ih =>
      intro acc h
      exact ih (insertCmp cmp z acc) (pairwise_insertCmp cmp htrans htotal z acc h)
  exact hgen l [] (List.Pairwise.nil)

/-- **C2 (amended).** The sequence returned by `findWords` is sorted by the source
comparator: word length ascending, with ties broken by `localeCompare` — the
locale-aware collation (case-insensitive letter order, lowercase before uppercase
on ties), not by case-sensitive ordinal comparison. -/
theorem c2_sorted_by_length_then_locale (lex : Lexicon) (g : Grid) :
    (findWords lex g).Pairwise (fun a b => jsCmp a b ≤ 0) := by
  rw [findWords]
  exact pairwise_sortByCmp jsCmp jsCmp_le_trans jsCmp_le_total _

/-- The ordering property asserted by the specification: length ascending, ties by
case-sensitive ordinal (code-point) comparison of the stored original-case word. -/
def specOrdinalSorted (l : List (String × GPath)) : Prop :=
  l.Pairwise (fun a b => a.1.length < b.1.length ∨
    (a.1.length = b.1.length ∧
      listOrdCompare (a.1.data.map Char.toNat) (b.1.data.map Char.toNat) ≤ 0))

/-- **C2 counterexample.** On the grid `[['a', 'B']]` with dictionary `{"a", "b"}`,
`findWords` returns `[("a", _), ("B", _)]`: under ordinal (code-point) comparison
`"B" (66)` precedes `"a" (97)`, so the output is NOT ordinally sorted — the tie-break
is `localeCompare`, which puts `"a"` before `"B"`. -/
theorem c2_counterexample :
    ¬ specOrdinalSorted (findWords (buildLexicon ["a", "b"]) [['a', 'B']]) := by
  have he : findWords (buildLexicon ["a", "b"]) [['a', 'B']]
      = [("a", [(0, 0)]), ("B", [(0, 1)])] :=
    @findWords_eval (buildLexicon ["a", "b"]) [['a', 'B']] 2
      [("a", [(0, 0)]), ("B", [(0, 1)])] (by decide) (by decide)
  rw [he, specOrdinalSorted]
  decide

theorem prefixesOf_fold (cs : List Char) : ∀ (p : String) (acc : List String),
    (cs.foldl (fun (a : String × List String) c => (a.1.push c, a.2 ++ [a.1.push c]))
      (p, acc)).2
      = acc ++ (List.range cs.length).map (fun k => (⟨p.data ++ cs.take (k + 1)⟩ : String)) := by
  induction cs with
  | nil => intro p acc; simp
  | cons c cs ih =>
    intro p acc
    rw [List.foldl_cons]
    show (cs.foldl _ (p.push c, acc ++ [p.push c])).2 = _
    rw [ih (p.push c) (acc ++ [p.push c])]
    rw [List.length_cons, List.range_succ_eq_map, List.map_cons, List.map_map]
    rw [List.append_assoc]
    congr 1
    rw [List.singleton_append]
    congr 1
    refine List.map_congr_left ?_
    intro k _
    apply String.ext
    simp [String.push, List.take_succ_cons]

theorem prefixesOf_eq (w : String) :
    prefixesOf w = (List.range w.data.length).map (fun k => (⟨w.data.take (k + 1)⟩ : String)) := by
  rw [prefixesOf]
  rw [prefixesOf_fold w.data "" []]
  simp

theorem mem_prefixesOf {w : String} {k : Nat} (hk1 : 1 ≤ k) (hk2 : k ≤ w.data.length) :
    (⟨w.data.take k⟩ : String) ∈ prefixesOf w := by
  rw [prefixesOf_eq]
  refine List.mem_map.mpr ⟨k - 1, List.mem_range.mpr (by omega), ?_⟩
  rw [show k - 1 + 1 = k by omega]

/-- The prefix-closure invariant carried through the dictionary build. -/
def lexClosed (lex : Lexicon) : Prop :=
  ∀ w ∈ lex.words, 1 ≤ w.data.length ∧
    ∀ k, 1 ≤ k → k ≤ w.data.length → (⟨w.data.take k⟩ : String) ∈ lex.prefixes

theorem addLine_closed {lex : Lexicon} (line : String) (h : lexClosed lex) :
    lexClosed (addLine lex line) := by
  rw [addLine]
  by_cases he : jsToLower (jsTrim line) = ""
  · rw [if_pos he]; exact h
  · rw [if_neg he]
    intro w hw
    rcases List.mem_append.mp hw with hw' | hw'
    · obtain ⟨h1, h2⟩ := h w hw'
      exact ⟨h1, fun k hk1 hk2 => List.mem_append_left _ (h2 k hk1 hk2)⟩
    · rw [List.mem_singleton] at hw'
      have hne : ¬ w = "" := by rw [hw']; exact he
      have hlen : 1 ≤ w.data.length := by
        cases w with
        | mk d =>
          cases d with
          | nil => exact absurd rfl hne
          | cons a l => simp
      refine ⟨hlen, fun k hk1 hk2 => List.mem_append_right _ ?_⟩
      rw [← hw']
      exact mem_prefixesOf hk1 hk2

theorem buildLexicon_closed_aux (lines : List String) :
    ∀ (lex0 : Lexicon), lexClosed lex0 → lexClosed (lines.foldl addLine lex0) := by
  induction lines with
  | nil => intro lex0 h; exact h
  | cons line rest ih =>
    intro lex0 h
    exact ih (addLine lex0 line) (addLine_closed line h)

/-- **C5.** Prefix closure of the built lexicon: for every input word list, every
word `w` recorded in `words` and every `k` in `[1, len w]`, the length-`k` prefix of
`w` is in `prefixes`; in particular (at `k = len w`) `words ⊆ prefixes`. -/
theorem c5_prefix_closure (lines : List String) (w : String) (k : Nat)
    (hw : w ∈ (buildLexicon lines).words) (hk1 : 1 ≤ k) (hk2 : k ≤ w.data.length) :
    (⟨w.data.take k⟩ : String) ∈ (buildLexicon lines).prefixes ∧
    w ∈ (buildLexicon lines).prefixes := by
  have hcl : lexClosed (buildLexicon lines) :=
    buildLexicon_closed_aux lines ⟨[], []⟩ (fun w hw => by cases hw)
  obtain ⟨h1, h2⟩ := hcl w hw
  refine ⟨h2 k hk1 hk2, ?_⟩
  have hall := h2 w.data.length h1 le_rfl
  rw [List.take_length] at hall
  exact hall

/-- Witness for C5: in the lexicon built from the single line "cat", the length-2
prefix "ca" of the recorded word "cat" is present in the prefix set, and so is
"cat" itself. -/
theorem c5_prefix_closure_witness :
    ("ca" ∈ (buildLexicon ["cat"]).prefixes) ∧ ("cat" ∈ (buildLexicon ["cat"]).prefixes) := by
  have h := c5_prefix_closure ["cat"] "cat" 2 (by decide) (by decide) (by decide)
  exact ⟨h.1, h.2⟩

/-- A coordinate names an in-bounds, usable (non-blank) cell of the grid. -/
def inBoundsUsable (g : Grid) (c : Int × Int) : Prop :=
  0 ≤ c.1 ∧ 0 ≤ c.2 ∧ c.1 < (g.length : Int) ∧ c.2 < (rowLen g c.1 : Int) ∧
  cellUsable (cellAt g c.1 c.2) = true

instance (g : Grid) (c : Int × Int) : Decidable (inBoundsUsable g c) :=
  inferInstanceAs (Decidable (0 ≤ c.1 ∧ 0 ≤ c.2 ∧ c.1 < (g.length : Int) ∧
    c.2 < (rowLen g c.1 : Int) ∧ cellUsable (cellAt g c.1 c.2) = true))

/-- Two coordinates are exactly one of the eight direction offsets apart. -/
def adjacentStep (a b : Int × Int) : Prop := (b.1 - a.1, b.2 - a.2) ∈ directions

instance (a b : Int × Int) : Decidable (adjacentStep a b) :=
  inferInstanceAs (Decidable ((b.1 - a.1, b.2 - a.2) ∈ directions))

/-- The concatenation of the grid letters along a path (in original cell case). -/
def pathWord (g : Grid) (p : GPath) : String :=
  p.foldl (fun s c => s.push (cellAt g c.1 c.2)) ""

theorem pathWord_append (g : Grid) (p : GPath) (c : Int × Int) :
    pathWord g (p ++ [c]) = (pathWord g p).push (cellAt g c.1 c.2) := by
  rw [pathWord, pathWord, List.foldl_append]
  rfl

/-- Soundness predicate for one stored entry: the path is nonempty, simple,
through usable in-bounds cells, 8-adjacent step by step, and spells the word. -/
def soundEntry (g : Grid) (w : String) (p : GPath) : Prop :=
  p ≠ [] ∧ p.Nodup ∧ (∀ c ∈ p, inBoundsUsable g c) ∧ List.Chain' adjacentStep p ∧
  pathWord g p = w

/-- The state invariant of one `dfs` node. -/
def nodeInv (g : Grid) (x y : Int) (path : GPath) (word : String)
    (visited : List String) : Prop :=
  path ≠ [] ∧ path.getLast? = some (x, y) ∧ path.Nodup ∧
  (∀ c ∈ path, inBoundsUsable g c) ∧ List.Chain' adjacentStep path ∧
  pathWord g path = word ∧ ∀ c ∈ path, coordKey c.1 c.2 ∈ visited

theorem mem_mapSet {m : WordsMap} {k : String} {v : GPath} {e : String × GPath}
    (he : e ∈ mapSet m k v) : e = (k, v) ∨ e ∈ m := by
  induction m with
  | nil =>
    rw [mapSet] at he
    exact Or.inl (List.mem_singleton.mp he)
  | cons e' rest ih =>
    obtain ⟨k', v'⟩ := e'
    rw [mapSet] at he
    by_cases hk : k' = k
    · rw [if_pos hk] at he
      rcases List.mem_cons.mp he with rfl | he'
      · exact Or.inl rfl
      · exact Or.inr (List.mem_cons_of_mem _ he')
    · rw [if_neg hk] at he
      rcases List.mem_cons.mp he with rfl | he'
      · exact Or.inr (List.mem_cons_self _ _)
      · rcases ih he' with h | h
        · exact Or.inl h
        · exact Or.inr (List.mem_cons_of_mem _ h)

/-- Taking a non-skipped neighbour preserves the node invariant. -/
theorem nodeInv_extend {g : Grid} {x y : Int} {path : GPath} {word : String}
    {visited : List String} (hinv : nodeInv g x y path word visited) {dx dy : Int}
    (hd : (dx, dy) ∈ directions)
    (hsm : skipMove g visited (x + dx) (y + dy) = false) :
    nodeInv g (x + dx) (y + dy) (path ++ [(x + dx, y + dy)])
      (word.push (cellAt g (x + dx) (y + dy)))
      (visited ++ [coordKey (x + dx) (y + dy)]) := by
  obtain ⟨hne, hlast, hnd, hbu, hch, hpw, hvis⟩ := hinv
  obtain ⟨s0, s1, s2, s3, s4, s5⟩ := skipMove_false hsm
  have hnotmem : (x + dx, y + dy) ∉ path := by
    intro hmem
    have hkm := hvis _ hmem
    rw [← contains_iff] at hkm
    rw [s5] at hkm
    cases hkm
  refine ⟨by simp, ?_, ?_, ?_, ?_, ?_, ?_⟩
  · rw [List.getLast?_append]
    rfl
  · rw [List.nodup_append]
    refine ⟨hnd, List.nodup_singleton _, ?_⟩
    intro a ha hb
    rw [List.mem_singleton] at hb
    subst hb
    exact hnotmem ha
  · intro c hc
    rcases List.mem_append.mp hc with hc' | hc'
    · exact hbu c hc'
    · rw [List.mem_singleton] at hc'
      subst hc'
      exact ⟨s0, s1, s2, s3, s4⟩
  · refine List.Chain'.append hch (List.chain'_singleton _) ?_
    intro a ha b hb
    rw [hlast] at ha
    rw [Option.mem_def] at ha hb
    cases ha
    cases hb
    show ((x + dx) - x, (y + dy) - y) ∈ directions
    have h1 : (x + dx) - x = dx := by omega
    have h2 : (y + dy) - y = dy := by omega
    rw [h1, h2]
    exact hd
  · rw [pathWord_append, hpw]
  · intro c hc
    rcases List.mem_append.mp hc with hc' | hc'
    · exact List.mem_append_left _ (hvis c hc')
    · rw [List.mem_singleton] at hc'
      subst hc'
      exact List.mem_append_right _ (List.mem_singleton.mpr rfl)

/-- Soundness of the fuel-indexed direction loop: every entry of the output store
is sound provided the input entries are. -/
theorem dfsLoopF_sound (lex : Lexicon) (g : Grid) (fuel : Nat)
    (IH : ∀ x y path word visited words out,
      dfsF lex g fuel x y path word visited words = some out →
      nodeInv g x y path word visited →
      (∀ e ∈ words, soundEntry g e.1 e.2) → ∀ e ∈ out, soundEntry g e.1 e.2) :
    ∀ (dirs : List (Int × Int)) (x y : Int) (path : GPath) (word : String)
      (visited : List String) (words out : WordsMap),
      (∀ d ∈ dirs, d ∈ directions) →
      dfsLoopF (dfsF lex g fuel) g x y path word visited words dirs = some out →
      nodeInv g x y path word visited →
      (∀ e ∈ words, soundEntry g e.1 e.2) → ∀ e ∈ out, soundEntry g e.1 e.2 := by
  intro dirs
  induction dirs with
  | nil =>
    intro x y path word visited words out _ hrun _ hwords
    rw [dfsLoopF] at hrun
    rw [← Option.some.inj hrun]
    exact hwords
  | cons d rest ih =>
    obtain ⟨dx, dy⟩ := d
    intro x y path word visited words out hdirs hrun hinv hwords
    rw [dfsLoopF] at hrun
    by_cases hsm : skipMove g visited (x + dx) (y + dy) = true
    · rw [if_pos hsm] at hrun
      exact ih x y path word visited words out
        (fun d hd => hdirs d (List.mem_cons_of_mem _ hd)) hrun hinv hwords
    · rw [if_neg hsm] at hrun
      rw [Bool.not_eq_true] at hsm
      cases hstep : dfsF lex g fuel (x + dx) (y + dy) (path ++ [(x + dx, y + dy)])
          (word.push (cellAt g (x + dx) (y + dy)))
          (visited ++ [coordKey (x + dx) (y + dy)]) words with
      | none =>
        rw [hstep] at hrun
        cases hrun
      | some w2 =>
        rw [hstep] at hrun
        have hw2 := IH _ _ _ _ _ _ _ hstep
          (nodeInv_extend hinv (hdirs _ (List.mem_cons_self _ _)) hsm) hwords
        exact ih x y path word visited w2 out
          (fun d hd => hdirs d (List.mem_cons_of_mem _ hd)) hrun hinv hw2

/-- Soundness of the fuel-indexed search, by induction on the fuel. -/
theorem dfsF_sound (lex : Lexicon) (g : Grid) :
    ∀ (fuel : Nat) (x y : Int) (path : GPath) (word : String)
      (visited : List String) (words out : WordsMap),
      dfsF lex g fuel x y path word visited words = some out →
      nodeInv g x y path word visited →
      (∀ e ∈ words, soundEntry g e.1 e.2) → ∀ e ∈ out, soundEntry g e.1 e.2 := by
  intro fuel
  induction fuel with
  | zero =>
    intro x y path word visited words out hrun
    cases hrun
  | succ fuel ih =>
    intro x y path word visited words out hrun hinv hwords
    rw [dfsF] at hrun
    by_cases hp : (!(lex.prefixes.contains (jsToLower word))) = true
    · rw [if_pos hp] at hrun
      rw [← Option.some.inj hrun]
      exact hwords
    · rw [if_neg hp] at hrun
      have hwords1 : ∀ e ∈ (if lex.words.contains (jsToLower word) = true
          then mapSet words word path else words), soundEntry g e.1 e.2 := by
        by_cases hw : lex.words.contains (jsToLower word) = true
        · rw [if_pos hw]
          intro e he
          rcases mem_mapSet he with rfl | he'
          · obtain ⟨i1, _, i3, i4, i5, i6, _⟩ := hinv
            exact ⟨i1, i3, i4, i5, i6⟩
          · exact hwords e he'
        · rw [if_neg hw]
          exact hwords
      exact dfsLoopF_sound lex g fuel ih directions x y path word visited _ out
        (fun d hd => hd) hrun hinv hwords1

theorem foldl_option_none {A B : Type} (F : Option A → B → Option A)
    (hnone : ∀ b, F none b = none) : ∀ (l : List B), l.foldl F none = none := by
  intro l
  induction l with
  | nil => rfl
  | cons b bs ih =>
    rw [List.foldl_cons, hnone b]
    exact ih

/-- A predicate carried through an `Option`-threaded fold. -/
theorem foldl_option_pred {A B : Type} (P : A → Prop) (F : Option A → B → Option A)
    (hnone : ∀ b, F none b = none) :
    ∀ (l : List B), (∀ b ∈ l, ∀ a a', F (some a) b = some a' → P a → P a') →
      ∀ a a', l.foldl F (some a) = some a' → P a → P a' := by
  intro l
  induction l with
  | nil =>
    intro _ a a' h hp
    rw [← Option.some.inj h]
    exact hp
  | cons b bs ih =>
    intro hstep a a' h hp
    rw [List.foldl_cons] at h
    cases hF : F (some a) b with
    | none =>
      rw [hF, foldl_option_none F hnone] at h
      cases h
    | some a1 =>
      rw [hF] at h
      exact ih (fun c hc => hstep c (List.mem_cons_of_mem _ hc)) a1 a' h
        (hstep b (List.mem_cons_self _ _) a a1 hF hp)

/-- The initial state of a search started at usable cell `(i, j)` satisfies the
node invariant. -/
theorem nodeInv_start {g : Grid} {i j : Nat} (hi : i < g.length)
    (hj : j < (g.getD i []).length) (hu : cellUsable ((g.getD i []).getD j ' ') = true) :
    nodeInv g i j [((i : Int), (j : Int))] (String.singleton ((g.getD i []).getD j ' '))
      [coordKey i j] := by
  have hcell : cellAt g i j = (g.getD i []).getD j ' ' := rfl
  have hrow : rowLen g i = (g.getD i []).length := rfl
  refine ⟨by simp, rfl, List.nodup_singleton _, ?_, List.chain'_singleton _, ?_, ?_⟩
  · intro c hc
    rw [List.mem_singleton] at hc
    subst hc
    refine ⟨by omega, by omega, by omega, ?_, ?_⟩
    · show ((j : Nat) : Int) < (rowLen g i : Int)
      rw [hrow]
      omega
    · rw [hcell]
      exact hu
  · rw [pathWord]
    rfl
  · intro c hc
    rw [List.mem_singleton] at hc
    subst hc
    exact List.mem_singleton.mpr rfl

/-- Every entry of the word map produced by the full traversal is sound. -/
theorem findWordsMap_sound (lex : Lexicon) (g : Grid) :
    ∀ e ∈ findWordsMap lex g, soundEntry g e.1 e.2 := by
  have hb := findWordsMapF_eq lex g
  rw [findWordsMapF] at hb
  have hinner_none : ∀ (i : Nat) (js : List Nat),
      js.foldl (fun acc2 j => acc2.bind (startCellF lex g (usableCount g) i j)) none = none :=
    fun i js => foldl_option_none _ (fun _ => rfl) js
  refine foldl_option_pred (fun m => ∀ e ∈ m, soundEntry g e.1 e.2) _
    (fun i => hinner_none i _) (List.range g.length) ?_ [] (findWordsMap lex g) hb
    (fun e he => absurd he (List.not_mem_nil e))
  intro i hi a a' hfold hp
  refine foldl_option_pred (fun m => ∀ e ∈ m, soundEntry g e.1 e.2) _
    (fun _ => rfl) (List.range (g.getD i []).length) ?_ a a' hfold hp
  intro j hj w w' hstep hw
  rw [Option.bind] at hstep
  rw [startCellF] at hstep
  by_cases hu : cellUsable ((g.getD i []).getD j ' ') = true
  · rw [if_pos hu] at hstep
    exact dfsF_sound lex g (usableCount g) i j _ _ _ w w' hstep
      (nodeInv_start (List.mem_range.mp hi) (List.mem_range.mp hj) hu) hw
  · rw [if_neg hu] at hstep
    rw [← Option.some.inj hstep]
    exact hw

theorem insertCmp_perm {α : Type} (cmp : α → α → Int) (x : α) :
    ∀ (l : List α), (insertCmp cmp x l).Perm (x :: l) := by
  intro l
  induction l with
  | nil => rw [insertCmp]
  | cons y ys ih =>
    rw [insertCmp]
    by_cases hc : cmp y x ≤ 0
    · rw [if_pos hc]
      exact (ih.cons y).trans (List.Perm.swap x y ys)
    · rw [if_neg hc]

theorem sortByCmp_perm {α : Type} (cmp : α → α → Int) (l : List α) :
    (sortByCmp cmp l).Perm l := by
  rw [sortByCmp]
  have hgen : ∀ (rest acc : List α),
      (rest.foldl (fun acc x => insertCmp cmp x acc) acc).Perm (rest ++ acc) := by
    intro rest
    induction rest with
    | nil => intro acc; exact List.Perm.refl _
    | cons b bs ih =>
      intro acc
      rw [List.foldl_cons]
      refine (ih (insertCmp cmp b acc)).trans ?_
      refine ((insertCmp_perm cmp b acc).append_left bs).trans ?_
      rw [List.cons_append] at *
      exact List.perm_middle
  have h := hgen l []
  rw [List.append_nil] at h
  exact h

/-- **C3.** Soundness of the solver: every `(word, path)` pair returned by
`findWords` spells the word along the path (case-insensitively — in fact in the
exact original case), repeats no coordinate, stays on in-bounds non-blank cells,
and each consecutive pair of coordinates is one of the 8 adjacency offsets apart. -/
theorem c3_soundness (lex : Lexicon) (g : Grid) (w : String) (p : GPath)
    (h : (w, p) ∈ findWords lex g) :
    jsToLower (pathWord g p) = jsToLower w ∧ p.Nodup ∧
    (∀ c ∈ p, inBoundsUsable g c) ∧ List.Chain' adjacentStep p := by
  have hm : (w, p) ∈ findWordsMap lex g := by
    rw [findWords] at h
    exact (sortByCmp_perm jsCmp (findWordsMap lex g)).mem_iff.mp h
  obtain ⟨_, h2, h3, h4, h5⟩ := findWordsMap_sound lex g (w, p) hm
  exact ⟨by rw [h5], h2, h3, h4⟩

/-- Witness for C3: on the one-cell grid `[['A']]` with dictionary `{"a"}`, the
single returned entry `("A", [(0, 0)])` satisfies all four soundness conjuncts. -/
theorem c3_soundness_witness :
    (("A", [((0 : Int), (0 : Int))]) ∈ findWords (buildLexicon ["a"]) [['A']]) ∧
    (jsToLower (pathWord [['A']] [(0, 0)]) = jsToLower "A" ∧
      ([((0 : Int), (0 : Int))] : GPath).Nodup ∧
      (∀ c ∈ ([((0 : Int), (0 : Int))] : GPath), inBoundsUsable [['A']] c) ∧
      List.Chain' adjacentStep [((0 : Int), (0 : Int))]) := by
  have hm : (("A", [((0 : Int), (0 : Int))]) ∈ findWords (buildLexicon ["a"]) [['A']]) := by
    rw [@findWords_eval (buildLexicon ["a"]) [['A']] 1 [("A", [(0, 0)])]
      (by decide) (by decide)]
    decide
  exact ⟨hm, c3_soundness (buildLexicon ["a"]) [['A']] "A" [(0, 0)] hm⟩

/-- Numeric value of a decimal digit character. -/
def digitVal (c : Char) : Nat := c.toNat - 48

/-- Decimal parse of a digit string, most significant digit first. -/
def parseDigits (ds : List Char) : Nat := ds.foldl (fun a c => 10 * a + digitVal c) 0

theorem parseDigits_append_digit (l : List Char) (c : Char) :
    parseDigits (l ++ [c]) = 10 * parseDigits l + digitVal c := by
  rw [parseDigits, parseDigits, List.foldl_append]
  rfl

theorem digitChar_val : ∀ m, m < 10 → digitVal (Nat.digitChar m) = m ∧
    Nat.digitChar m ∈ ['0', '1', '2', '3', '4', '5', '6', '7', '8', '9'] := by
  decide

/-- `Nat.toDigitsCore` at base 10 produces a parseable nonempty run of decimal
digit characters in front of its accumulator. -/
theorem toDigitsCore_spec : ∀ (fuel : Nat), ∀ (n : Nat), ∀ (ds : List Char), n < fuel →
    ∃ digs : List Char, Nat.toDigitsCore 10 fuel n ds = digs ++ ds ∧ digs ≠ [] ∧
      (∀ c ∈ digs, c ∈ ['0', '1', '2', '3', '4', '5', '6', '7', '8', '9']) ∧
      parseDigits digs = n := by
  intro fuel
  induction fuel with
  | zero => intro n ds h; omega
  | succ fuel ih =>
    intro n ds h
    rw [Nat.toDigitsCore]
    by_cases hdiv : n / 10 = 0
    · rw [if_pos hdiv]
      refine ⟨[Nat.digitChar (n % 10)], rfl, by simp, ?_, ?_⟩
      · intro c hc
        rw [List.mem_singleton] at hc
        subst hc
        exact (digitChar_val (n % 10) (Nat.mod_lt n (by omega))).2
      · have hn : n % 10 = n := by omega
        have hv := (digitChar_val (n % 10) (Nat.mod_lt n (by omega))).1
        rw [parseDigits, List.foldl_cons]
        rw [List.foldl_nil]
        show 10 * 0 + digitVal (Nat.digitChar (n % 10)) = n
        rw [hv, hn]
        omega
    · rw [if_neg hdiv]
      have hn10 : 10 ≤ n := by
        by_contra hlt
        exact hdiv (Nat.div_eq_of_lt (by omega))
      have hlt : n / 10 < fuel := by
        have := Nat.div_lt_self (show 0 < n by omega) (show 1 < 10 by omega)
        omega
      obtain ⟨digs, heq, hne, hdig, hparse⟩ :=
        ih (n / 10) (Nat.digitChar (n % 10) :: ds) hlt
      refine ⟨digs ++ [Nat.digitChar (n % 10)], ?_, by simp, ?_, ?_⟩
      · rw [heq, List.append_assoc, List.singleton_append]
      · intro c hc
        rcases List.mem_append.mp hc with hc' | hc'
        · exact hdig c hc'
        · rw [List.mem_singleton] at hc'
          subst hc'
          exact (digitChar_val (n % 10) (Nat.mod_lt n (by omega))).2
      · rw [parseDigits_append_digit, hparse,
          (digitChar_val (n % 10) (Nat.mod_lt n (by omega))).1]
        omega

theorem toDigits_spec (n : Nat) :
    (∀ c ∈ Nat.toDigits 10 n, c ∈ ['0', '1', '2', '3', '4', '5', '6', '7', '8', '9']) ∧
    parseDigits (Nat.toDigits 10 n) = n := by
  obtain ⟨digs, heq, _, hdig, hparse⟩ := toDigitsCore_spec (n + 1) n [] (by omega)
  rw [Nat.toDigits, heq, List.append_nil]
  exact ⟨hdig, hparse⟩

theorem natRepr_data_digits (n : Nat) :
    ∀ c ∈ (Nat.repr n).data, c ∈ ['0', '1', '2', '3', '4', '5', '6', '7', '8', '9'] :=
  (toDigits_spec n).1

theorem natRepr_inj {m n : Nat} (h : (Nat.repr m).data = (Nat.repr n).data) : m = n := by
  have hm := (toDigits_spec m).2
  have hn := (toDigits_spec n).2
  have hdata : Nat.toDigits 10 m = Nat.toDigits 10 n := h
  rw [← hm, ← hn, hdata]

theorem append_comma_inj : ∀ (a : List Char) {b : List Char} (c : List Char) {d : List Char},
    ',' ∉ a → ',' ∉ c → a ++ ',' :: b = c ++ ',' :: d → a = c ∧ b = d := by
  intro a
  induction a with
  | nil =>
    intro b c d _ hc h
    cases c with
    | nil =>
      rw [List.nil_append, List.nil_append] at h
      exact ⟨rfl, (List.cons.injEq _ _ _ _ ▸ h).2⟩
    | cons e c' =>
      rw [List.nil_append, List.cons_append] at h
      have he : ',' = e := (List.cons.injEq _ _ _ _ ▸ h).1
      exact absurd (he ▸ List.mem_cons_self e c') hc
  | cons e a' ih =>
    intro b c d ha hc h
    cases c with
    | nil =>
      rw [List.cons_append, List.nil_append] at h
      have he : e = ',' := (List.cons.injEq _ _ _ _ ▸ h).1
      exact absurd (he ▸ List.mem_cons_self e a') ha
    | cons e' c' =>
      rw [List.cons_append, List.cons_append] at h
      have h1 := (List.cons.injEq _ _ _ _ ▸ h).1
      have h2 := (List.cons.injEq _ _ _ _ ▸ h).2
      obtain ⟨hac, hbd⟩ := ih c' (fun hm => ha (List.mem_cons_of_mem e hm))
        (fun hm => hc (List.mem_cons_of_mem e' hm)) h2
      exact ⟨by rw [h1, hac], hbd⟩

theorem toString_int_nonneg (x : Int) (hx : 0 ≤ x) : toString x = Nat.repr x.toNat := by
  cases x with
  | ofNat m => rfl
  | negSucc m => exact absurd hx (not_le.mpr (Int.negSucc_lt_zero m))

theorem comma_not_mem_natRepr (n : Nat) : ',' ∉ (Nat.repr n).data := by
  intro hm
  have := natRepr_data_digits n ',' hm
  simp at this

/-- The visited-set keys of distinct nonnegative coordinates are distinct. -/
theorem coordKey_inj {x1 y1 x2 y2 : Int} (hx1 : 0 ≤ x1) (hy1 : 0 ≤ y1) (hx2 : 0 ≤ x2)
    (hy2 : 0 ≤ y2) (h : coordKey x1 y1 = coordKey x2 y2) : x1 = x2 ∧ y1 = y2 := by
  rw [coordKey, coordKey, toString_int_nonneg x1 hx1, toString_int_nonneg y1 hy1,
    toString_int_nonneg x2 hx2, toString_int_nonneg y2 hy2] at h
  have hdata : (Nat.repr x1.toNat).data ++ ',' :: (Nat.repr y1.toNat).data
      = (Nat.repr x2.toNat).data ++ ',' :: (Nat.repr y2.toNat).data := by
    have := congrArg String.data h
    simpa using this
  obtain ⟨hx, hy⟩ := append_comma_inj _ _ (comma_not_mem_natRepr x1.toNat)
    (comma_not_mem_natRepr x2.toNat) hdata
  constructor
  · have := natRepr_inj hx
    omega
  · have := natRepr_inj hy
    omega

/-- Key-set behaviour of `Map.set`: an existing key leaves the key sequence
unchanged, a new key is appended. -/
theorem mapSet_keys (m : WordsMap) (k : String) (v : GPath) :
    (mapSet m k v).map Prod.fst =
      if k ∈ m.map Prod.fst then m.map Prod.fst else m.map Prod.fst ++ [k] := by
  induction m with
  | nil =>
    rw [mapSet]
    simp
  | cons e rest ih =>
    obtain ⟨k', v'⟩ := e
    rw [mapSet]
    by_cases hk : k' = k
    · subst hk
      rw [if_pos rfl]
      rw [List.map_cons, List.map_cons]
      rw [if_pos (List.mem_cons_self _ _)]
    · rw [if_neg hk]
      rw [List.map_cons, List.map_cons, ih]
      by_cases hmem : k ∈ rest.map Prod.fst
      · rw [if_pos hmem, if_pos (List.mem_cons_of_mem _ hmem)]
      · rw [if_neg hmem, if_neg ?_]
        · rw [List.cons_append]
        · intro hc
          rcases List.mem_cons.mp hc with hc' | hc'
          · exact hk hc'.symm
          · exact hmem hc'

/-- Growth relation on the key sequences of two word stores. -/
def keysP (words out : WordsMap) : Prop :=
  (∀ a ∈ words.map Prod.fst, a ∈ out.map Prod.fst) ∧
  ((words.map Prod.fst).Nodup → (out.map Prod.fst).Nodup)

theorem keysP_refl (words : WordsMap) : keysP words words := ⟨fun _ h => h, fun h => h⟩

theorem keysP_trans {a b c : WordsMap} (h1 : keysP a b) (h2 : keysP b c) : keysP a c :=
  ⟨fun x hx => h2.1 x (h1.1 x hx), fun h => h2.2 (h1.2 h)⟩

theorem keysP_mapSet (m : WordsMap) (k : String) (v : GPath) : keysP m (mapSet m k v) := by
  rw [keysP, mapSet_keys]
  by_cases hmem : k ∈ m.map Prod.fst
  · rw [if_pos hmem]
    exact ⟨fun _ h => h, fun h => h⟩
  · rw [if_neg hmem]
    constructor
    · intro a ha
      exact List.mem_append_left _ ha
    · intro h
      rw [List.nodup_append]
      refine ⟨h, List.nodup_singleton _, ?_⟩
      intro a ha hb
      rw [List.mem_singleton] at hb
      subst hb
      exact hmem ha

theorem dfsLoopF_keysP (lex : Lexicon) (g : Grid) (fuel : Nat)
    (IH : ∀ x y path word visited words out,
      dfsF lex g fuel x y path word visited words = some out → keysP words out) :
    ∀ (dirs : List (Int × Int)) (x y : Int) (path : GPath) (word : String)
      (visited : List String) (words out : WordsMap),
      dfsLoopF (dfsF lex g fuel) g x y path word visited words dirs = some out →
      keysP words out := by
  intro dirs
  induction dirs with
  | nil =>
    intro x y path word visited words out hrun
    rw [dfsLoopF] at hrun
    rw [← Option.some.inj hrun]
    exact keysP_refl words
  | cons d rest ih =>
    obtain ⟨dx, dy⟩ := d
    intro x y path word visited words out hrun
    rw [dfsLoopF] at hrun
    by_cases hsm : skipMove g visited (x + dx) (y + dy) = true
    · rw [if_pos hsm] at hrun
      exact ih x y path word visited words out hrun
    · rw [if_neg hsm] at hrun
      cases hstep : dfsF lex g fuel (x + dx) (y + dy) (path ++ [(x + dx, y + dy)])
          (word.push (cellAt g (x + dx) (y + dy)))
          (visited ++ [coordKey (x + dx) (y + dy)]) words with
      | none =>
        rw [hstep] at hrun
        cases hrun
      | some w2 =>
        rw [hstep] at hrun
        exact keysP_trans (IH _ _ _ _ _ _ _ hstep) (ih x y path word visited w2 out hrun)

theorem dfsF_keysP (lex : Lexicon) (g : Grid) :
    ∀ (fuel : Nat) (x y : Int) (path : GPath) (word : String)
      (visited : List String) (words out : WordsMap),
      dfsF lex g fuel x y path word visited words = some out → keysP words out := by
  intro fuel
  induction fuel with
  | zero =>
    intro x y path word visited words out hrun
    cases hrun
  | succ fuel ih =>
    intro x y path word visited words out hrun
    rw [dfsF] at hrun
    by_cases hp : (!(lex.prefixes.contains (jsToLower word))) = true
    · rw [if_pos hp] at hrun
      rw [← Option.some.inj hrun]
      exact keysP_refl words
    · rw [if_neg hp] at hrun
      have hmid : keysP words (if lex.words.contains (jsToLower word) = true
          then mapSet words word path else words) := by
        by_cases hw : lex.words.contains (jsToLower word) = true
        · rw [if_pos hw]
          exact keysP_mapSet words word path
        · rw [if_neg hw]
          exact keysP_refl words
      exact keysP_trans hmid (dfsLoopF_keysP lex g fuel ih directions x y path word visited _ out hrun)

/-- The letters along the path, as the word's character data. -/
theorem pathWord_data (g : Grid) (p : GPath) :
    (pathWord g p).data = p.map (fun c => cellAt g c.1 c.2) := by
  have haux : ∀ (q : GPath) (s : String),
      (q.foldl (fun s c => s.push (cellAt g c.1 c.2)) s).data
        = s.data ++ q.map (fun c => cellAt g c.1 c.2) := by
    intro q
    induction q with
    | nil => intro s; simp
    | cons c q ih =>
      intro s
      rw [List.foldl_cons, ih, List.map_cons]
      show (s.data ++ [cellAt g c.1 c.2]) ++ _ = _
      rw [List.append_assoc, List.singleton_append]
  rw [pathWord, haux]
  rfl

theorem pathWord_length (g : Grid) (p : GPath) : (pathWord g p).data.length = p.length := by
  rw [pathWord_data, List.length_map]

/-- Lowercasing the word of a path fragment is a data-level take of the
lowercased full word. -/
theorem jsToLower_pathWord_take (g : Grid) (path rest : GPath) :
    jsToLower (pathWord g path)
      = ⟨(jsToLower (pathWord g (path ++ rest))).data.take path.length⟩ := by
  apply String.ext
  show (pathWord g path).data.map Char.toLower
    = ((pathWord g (path ++ rest)).data.map Char.toLower).take path.length
  rw [pathWord_data, pathWord_data, List.map_append, List.map_append]
  rw [List.take_append_of_le_length (by simp)]
  rw [List.take_of_length_le (by simp)]

/-- At every node along a walkable dictionary path, the accumulated lowercased
word is in the prefix set of a closed lexicon. -/
theorem lexClosed_contains_pathWord (lex : Lexicon) (g : Grid) (hlex : lexClosed lex)
    {p path rest : GPath} (hp : p = path ++ rest) (hne : path ≠ [])
    (hwmem : jsToLower (pathWord g p) ∈ lex.words) :
    lex.prefixes.contains (jsToLower (pathWord g path)) = true := by
  rw [contains_iff]
  obtain ⟨hlen1, hT⟩ := hlex (jsToLower (pathWord g p)) hwmem
  have hlen : (jsToLower (pathWord g p)).data.length = p.length := by
    show ((pathWord g p).data.map Char.toLower).length = p.length
    rw [List.length_map, pathWord_length]
  have htake : jsToLower (pathWord g path)
      = ⟨(jsToLower (pathWord g p)).data.take path.length⟩ := by
    rw [hp]
    exact jsToLower_pathWord_take g path rest
  rw [htake]
  refine hT path.length ?_ ?_
  · have hpos : 0 < path.length := List.length_pos.mpr hne
    omega
  · rw [hlen, hp, List.length_append]
    omega

theorem mem_keys_mapSet (m : WordsMap) (k : String) (v : GPath) :
    k ∈ (mapSet m k v).map Prod.fst := by
  rw [mapSet_keys]
  by_cases hmem : k ∈ m.map Prod.fst
  · rw [if_pos hmem]
    exact hmem
  · rw [if_neg hmem]
    exact List.mem_append_right _ (List.mem_singleton.mpr rfl)

/-- If some direction of the loop reaches the target key and every search step can
only grow the key set, the loop's output contains the target key. -/
theorem dfsLoopF_reach (lex : Lexicon) (g : Grid) (fuel : Nat) (t : String) :
    ∀ (dirs : List (Int × Int)) (x y : Int) (path : GPath) (word : String)
      (visited : List String) (words out : WordsMap) (dx dy : Int),
      (dx, dy) ∈ dirs →
      skipMove g visited (x + dx) (y + dy) = false →
      (∀ (w0 w2 : WordsMap),
        dfsF lex g fuel (x + dx) (y + dy) (path ++ [(x + dx, y + dy)])
          (word.push (cellAt g (x + dx) (y + dy)))
          (visited ++ [coordKey (x + dx) (y + dy)]) w0 = some w2 →
        t ∈ w2.map Prod.fst) →
      dfsLoopF (dfsF lex g fuel) g x y path word visited words dirs = some out →
      t ∈ out.map Prod.fst := by
  intro dirs
  induction dirs with
  | nil =>
    intro x y path word visited words out dx dy hmem _ _ _
    cases hmem
  | cons d' rest ih =>
    obtain ⟨dx', dy'⟩ := d'
    intro x y path word visited words out dx dy hmem hskip hchild hrun
    rw [dfsLoopF] at hrun
    by_cases hd : dx' = dx ∧ dy' = dy
    · obtain ⟨rfl, rfl⟩ := hd
      rw [if_neg (by rw [hskip]; exact Bool.false_ne_true)] at hrun
      cases hstep : dfsF lex g fuel (x + dx') (y + dy') (path ++ [(x + dx', y + dy')])
          (word.push (cellAt g (x + dx') (y + dy')))
          (visited ++ [coordKey (x + dx') (y + dy')]) words with
      | none =>
        rw [hstep] at hrun
        cases hrun
      | some w2 =>
        rw [hstep] at hrun
        exact (dfsLoopF_keysP lex g fuel (dfsF_keysP lex g fuel) rest
          x y path word visited w2 out hrun).1 t (hchild words w2 hstep)
    · have hmem' : (dx, dy) ∈ rest := by
        rcases List.mem_cons.mp hmem with heq | hmem'
        · rw [Prod.mk.injEq] at heq
          exact absurd ⟨heq.1.symm, heq.2.symm⟩ hd
        · exact hmem'
      by_cases hsm : skipMove g visited (x + dx') (y + dy') = true
      · rw [if_pos hsm] at hrun
        exact ih x y path word visited words out dx dy hmem' hskip hchild hrun
      · rw [if_neg hsm] at hrun
        cases hstep : dfsF lex g fuel (x + dx') (y + dy') (path ++ [(x + dx', y + dy')])
            (word.push (cellAt g (x + dx') (y + dy')))
            (visited ++ [coordKey (x + dx') (y + dy')]) words with
        | none =>
          rw [hstep] at hrun
          cases hrun
        | some w2 =>
          rw [hstep] at hrun
          exact ih x y path word visited w2 out dx dy hmem' hskip hchild hrun

/-- Completeness of the search from a node: if the remaining coordinates of a
simple adjacent usable path can still be walked, the spelled word's key ends up in
the output store. The visited set is exactly the key set of the walked fragment. -/
theorem dfsF_reach (lex : Lexicon) (g : Grid) (hlex : lexClosed lex) (p : GPath)
    (hnd : p.Nodup) (hbu : ∀ c ∈ p, inBoundsUsable g c) (hch : List.Chain' adjacentStep p)
    (hwd : lex.words.contains (jsToLower (pathWord g p)) = true) :
    ∀ (rest path : GPath) (x y : Int) (fuel : Nat) (words out : WordsMap),
      p = path ++ rest → path ≠ [] → path.getLast? = some (x, y) →
      dfsF lex g fuel x y path (pathWord g path)
        (path.map (fun c => coordKey c.1 c.2)) words = some out →
      pathWord g p ∈ out.map Prod.fst := by
  have hwmem : jsToLower (pathWord g p) ∈ lex.words := (contains_iff _ _).mp hwd
  have hplen : (jsToLower (pathWord g p)).data.length = p.length := by
    show ((pathWord g p).data.map Char.toLower).length = p.length
    rw [List.length_map, pathWord_length]
  intro rest
  induction rest with
  | nil =>
    intro path x y fuel words out hp hne _ hrun
    have hpp : pathWord g p = pathWord g path := by rw [hp, List.append_nil]
    cases fuel with
    | zero => cases hrun
    | succ fuel =>
      rw [dfsF] at hrun
      have hwd' : lex.words.contains (jsToLower (pathWord g path)) = true := by
        rw [← hpp]
        exact hwd
      have hpc : lex.prefixes.contains (jsToLower (pathWord g path)) = true :=
        lexClosed_contains_pathWord lex g hlex hp hne hwmem
      rw [hpc, hwd'] at hrun
      rw [if_neg (by decide)] at hrun
      rw [if_pos rfl] at hrun
      rw [hpp]
      exact (dfsLoopF_keysP lex g fuel (dfsF_keysP lex g fuel) directions
        x y path (pathWord g path) _ _ out hrun).1 _
        (mem_keys_mapSet words (pathWord g path) path)
  | cons c rest' ih =>
    intro path x y fuel words out hp hne hlast hrun
    obtain ⟨cx, cy⟩ := c
    cases fuel with
    | zero => cases hrun
    | succ fuel =>
      rw [dfsF] at hrun
      have hpc : lex.prefixes.contains (jsToLower (pathWord g path)) = true :=
        lexClosed_contains_pathWord lex g hlex hp hne hwmem
      rw [hpc] at hrun
      rw [if_neg (by decide)] at hrun
      -- the junction step is one of the eight directions
      have hadj : adjacentStep (x, y) (cx, cy) := by
        rw [hp] at hch
        have := (List.chain'_append.mp hch).2.2
        exact this (x, y) (by rw [hlast]; rfl) (cx, cy) rfl
      have hcx0 : (0 : Int) ≤ cx := by
        have := hbu (cx, cy) (by rw [hp]; exact List.mem_append_right _ (List.mem_cons_self _ _))
        exact this.1
      have hcy0 : (0 : Int) ≤ cy := by
        have := hbu (cx, cy) (by rw [hp]; exact List.mem_append_right _ (List.mem_cons_self _ _))
        exact this.2.1
      have hnotpath : ((cx, cy) : Int × Int) ∉ path := by
        intro hcmem
        rw [hp, List.nodup_append] at hnd
        exact hnd.2.2 hcmem (List.mem_cons_self _ _)
      have hskip0 : skipMove g (path.map (fun c => coordKey c.1 c.2)) cx cy = false := by
        have hbuc := hbu (cx, cy)
          (by rw [hp]; exact List.mem_append_right _ (List.mem_cons_self _ _))
        rw [skipMove]
        rw [decide_eq_false (not_lt.mpr hcx0), decide_eq_false (not_lt.mpr hcy0)]
        rw [decide_eq_false (not_le.mpr hbuc.2.2.1), decide_eq_false (not_le.mpr hbuc.2.2.2.1)]
        rw [hbuc.2.2.2.2]
        have hnc : (path.map (fun c => coordKey c.1 c.2)).contains (coordKey cx cy) = false := by
          rw [Bool.eq_false_iff]
          intro hcont
          rw [contains_iff] at hcont
          obtain ⟨c', hc'mem, hc'key⟩ := List.mem_map.mp hcont
          have hc'bu := hbu c' (by rw [hp]; exact List.mem_append_left _ hc'mem)
          obtain ⟨he1, he2⟩ := coordKey_inj hc'bu.1 hc'bu.2.1 hcx0 hcy0 hc'key
          have : ((cx, cy) : Int × Int) ∈ path := by
            rw [← he1, ← he2]
            exact (by simpa using hc'mem)
          exact hnotpath this
        rw [hnc]
        rfl
      have ex : x + (cx - x) = cx := by omega
      have ey : y + (cy - y) = cy := by omega
      refine dfsLoopF_reach lex g fuel (pathWord g p) directions x y path
        (pathWord g path) (path.map (fun c => coordKey c.1 c.2)) _ out (cx - x) (cy - y)
        hadj (by rw [ex, ey]; exact hskip0) ?_ hrun
      intro w0 w2 hrun2
      rw [ex, ey] at hrun2
      rw [show ((pathWord g path).push (cellAt g cx cy))
          = pathWord g (path ++ [((cx : Int), (cy : Int))]) from
        (pathWord_append g path (cx, cy)).symm] at hrun2
      have hv : path.map (fun c => coordKey c.1 c.2) ++ [coordKey cx cy]
          = (path ++ [((cx : Int), (cy : Int))]).map (fun c => coordKey c.1 c.2) := by
        rw [List.map_append]
        rfl
      rw [hv] at hrun2
      refine ih (path ++ [(cx, cy)]) cx cy fuel w0 w2 ?_ (by simp) ?_ hrun2
      · rw [hp, List.append_assoc, List.singleton_append]
      · rw [List.getLast?_append]
        rfl

/-- A simple 8-adjacent path through usable in-bounds cells. -/
def simpleAdjPath (g : Grid) (p : GPath) : Prop :=
  p ≠ [] ∧ p.Nodup ∧ (∀ c ∈ p, inBoundsUsable g c) ∧ List.Chain' adjacentStep p

/-- A computable decision procedure for the adjacency chain of a concrete path. -/
def decChainAdj : (l : GPath) → Decidable (List.Chain' adjacentStep l)
  | [] => isTrue List.chain'_nil
  | [c] => isTrue (List.chain'_singleton c)
  | a :: b :: rest =>
    have hd : Decidable (List.Chain' adjacentStep (b :: rest)) := decChainAdj (b :: rest)
    have hand : Decidable (adjacentStep a b ∧ List.Chain' adjacentStep (b :: rest)) :=
      @instDecidableAnd _ _ _ hd
    decidable_of_iff _ List.chain'_cons.symm

instance (l : GPath) : Decidable (List.Chain' adjacentStep l) := decChainAdj l

instance (g : Grid) (p : GPath) : Decidable (simpleAdjPath g p) :=
  inferInstanceAs (Decidable (p ≠ [] ∧ p.Nodup ∧ (∀ c ∈ p, inBoundsUsable g c) ∧
    List.Chain' adjacentStep p))

instance (lex : Lexicon) : Decidable (lexClosed lex) :=
  decidable_of_iff (∀ w ∈ lex.words, 1 ≤ w.data.length ∧
      ∀ k < w.data.length, (⟨w.data.take (k + 1)⟩ : String) ∈ lex.prefixes) (by
    constructor
    · intro h w hw
      refine ⟨(h w hw).1, ?_⟩
      intro k hk1 hk2
      have := (h w hw).2 (k - 1) (by omega)
      rw [show k - 1 + 1 = k by omega] at this
      exact this
    · intro h w hw
      refine ⟨(h w hw).1, ?_⟩
      intro k hk
      exact (h w hw).2 (k + 1) (by omega) (by omega))

/-- The trigger version of `foldl_option_pred`: if some step of the fold
establishes the property and all later steps preserve it, the result has it. -/
theorem foldl_option_reach {A B : Type} (P : A → Prop) (F : Option A → B → Option A)
    (hnone : ∀ b, F none b = none) :
    ∀ (l : List B) (b0 : B), b0 ∈ l →
      (∀ a a', F (some a) b0 = some a' → P a') →
      (∀ b ∈ l, ∀ a a', F (some a) b = some a' → P a → P a') →
      ∀ a a', l.foldl F (some a) = some a' → P a' := by
  intro l
  induction l with
  | nil =>
    intro b0 h
    cases h
  | cons b bs ih =>
    intro b0 hb0 htrig hpres a a' hrun
    rw [List.foldl_cons] at hrun
    cases hF : F (some a) b with
    | none =>
      rw [hF, foldl_option_none F hnone] at hrun
      cases hrun
    | some a1 =>
      rw [hF] at hrun
      by_cases hbb : b0 = b
      · subst hbb
        exact foldl_option_pred P F hnone bs
          (fun c hc => hpres c (List.mem_cons_of_mem _ hc)) a1 a' hrun (htrig a a1 hF)
      · have hb0' : b0 ∈ bs := by
          rcases List.mem_cons.mp hb0 with h | h
          · exact absurd h hbb
          · exact h
        exact ih b0 hb0' htrig (fun c hc => hpres c (List.mem_cons_of_mem _ hc)) a1 a' hrun

/-- One start-cell step of the fuel-indexed traversal can only grow the key set. -/
theorem startCellF_keysP (lex : Lexicon) (g : Grid) (fuel i j : Nat)
    (a a' : WordsMap) (h : startCellF lex g fuel i j a = some a') : keysP a a' := by
  rw [startCellF] at h
  by_cases hu : cellUsable ((g.getD i []).getD j ' ') = true
  · rw [if_pos hu] at h
    exact dfsF_keysP lex g fuel _ _ _ _ _ _ _ h
  · rw [if_neg hu] at h
    rw [← Option.some.inj h]
    exact keysP_refl a

/-- Completeness at the word-map level: the exact original-case word of any
walkable dictionary path is one of the stored keys. -/
theorem findWordsMap_complete (lex : Lexicon) (g : Grid) (hlex : lexClosed lex)
    (p : GPath) (hsp : simpleAdjPath g p)
    (hwd : lex.words.contains (jsToLower (pathWord g p)) = true) :
    pathWord g p ∈ (findWordsMap lex g).map Prod.fst := by
  obtain ⟨hne, hnd, hbu, hch⟩ := hsp
  have hb := findWordsMapF_eq lex g
  rw [findWordsMapF] at hb
  cases hp : p with
  | nil => exact absurd hp hne
  | cons c0 ptail =>
    obtain ⟨hx, hy⟩ := c0
    rw [← hp]
    have hbu0 := hbu (hx, hy) (by rw [hp]; exact List.mem_cons_self _ _)
    have hx0 : (0 : Int) ≤ hx := hbu0.1
    have hy0 : (0 : Int) ≤ hy := hbu0.2.1
    have hi0 : hx.toNat < g.length := by
      have hlt : hx < (g.length : Int) := hbu0.2.2.1
      omega
    have hj0 : hy.toNat < (g.getD hx.toNat []).length := by
      have hlt : hy < (rowLen g hx : Int) := hbu0.2.2.2.1
      rw [rowLen] at hlt
      omega
    have husable : cellUsable ((g.getD hx.toNat []).getD hy.toNat ' ') = true :=
      hbu0.2.2.2.2
    have hinner_none : ∀ (i : Nat) (js : List Nat),
        js.foldl (fun acc2 j => acc2.bind (startCellF lex g (usableCount g) i j)) none
          = none :=
      fun i js => foldl_option_none _ (fun _ => rfl) js
    refine foldl_option_reach (fun m => pathWord g p ∈ m.map Prod.fst) _
      (fun i => hinner_none i _) (List.range g.length) hx.toNat
      (List.mem_range.mpr hi0) ?_ ?_ [] (findWordsMap lex g) hb
    · -- the row of the start cell: trigger the inner fold at the start column
      intro a a' hrun
      refine foldl_option_reach (fun m => pathWord g p ∈ m.map Prod.fst) _
        (fun _ => rfl) (List.range (g.getD hx.toNat []).length) hy.toNat
        (List.mem_range.mpr hj0) ?_ ?_ a a' hrun
      · intro a2 a2' hstep
        rw [Option.bind] at hstep
        rw [startCellF] at hstep
        rw [if_pos husable] at hstep
        rw [Int.toNat_of_nonneg hx0, Int.toNat_of_nonneg hy0] at hstep
        rw [show String.singleton ((g.getD hx.toNat []).getD hy.toNat ' ')
            = pathWord g [((hx : Int), (hy : Int))] from rfl] at hstep
        rw [show ([coordKey hx hy] : List String)
            = ([((hx : Int), (hy : Int))] : GPath).map (fun c => coordKey c.1 c.2)
          from rfl] at hstep
        exact dfsF_reach lex g hlex p hnd hbu hch hwd ptail [(hx, hy)] hx hy
          (usableCount g) a2 a2' (by rw [hp, List.singleton_append]) (by simp) rfl hstep
      · intro j _ a2 a2' hstep hmem
        rw [Option.bind] at hstep
        exact (startCellF_keysP lex g (usableCount g) hx.toNat j a2 a2' hstep).1 _ hmem
    · -- later rows only grow the key set
      intro i _ a a' hrun hmem
      exact foldl_option_pred (fun m => pathWord g p ∈ m.map Prod.fst) _
        (fun _ => rfl) (List.range (g.getD i []).length)
        (fun j _ a2 a2' hstep hm => by
          rw [Option.bind] at hstep
          exact (startCellF_keysP lex g (usableCount g) i j a2 a2' hstep).1 _ hm)
        a a' hrun hmem

/-- The key sequence of the produced word map has no duplicates. -/
theorem findWordsMap_keys_nodup (lex : Lexicon) (g : Grid) :
    ((findWordsMap lex g).map Prod.fst).Nodup := by
  have hb := findWordsMapF_eq lex g
  rw [findWordsMapF] at hb
  have hinner_none : ∀ (i : Nat) (js : List Nat),
      js.foldl (fun acc2 j => acc2.bind (startCellF lex g (usableCount g) i j)) none
        = none :=
    fun i js => foldl_option_none _ (fun _ => rfl) js
  refine foldl_option_pred (fun m => (m.map Prod.fst).Nodup) _
    (fun i => hinner_none i _) (List.range g.length) ?_ [] (findWordsMap lex g) hb
    (by simp)
  intro i _ a a' hrun hmem
  refine foldl_option_pred (fun m => (m.map Prod.fst).Nodup) _
    (fun _ => rfl) (List.range (g.getD i []).length) ?_ a a' hrun hmem
  intro j _ a2 a2' hstep hm
  rw [Option.bind] at hstep
  exact (startCellF_keysP lex g (usableCount g) i j a2 a2' hstep).2 hm

/-- **C4 (amended).** Completeness with exact-case keys: for every grid and every
prefix-closed lexicon, every original-case string spelled by a simple 8-adjacent
path through usable cells whose lowercasing is a dictionary word appears exactly
once as a key of the result of `findWords`. -/
theorem c4_complete_exactly_once (lex : Lexicon) (g : Grid) (p : GPath)
    (hlex : lexClosed lex) (hsp : simpleAdjPath g p)
    (hwd : lex.words.contains (jsToLower (pathWord g p)) = true) :
    ((findWords lex g).map Prod.fst).count (pathWord g p) = 1 := by
  have hmem := findWordsMap_complete lex g hlex p hsp hwd
  have hnd := findWordsMap_keys_nodup lex g
  have hperm : ((findWords lex g).map Prod.fst).Perm
      ((findWordsMap lex g).map Prod.fst) := by
    rw [findWords]
    exact (sortByCmp_perm jsCmp (findWordsMap lex g)).map Prod.fst
  rw [hperm.count_eq]
  exact List.count_eq_one_of_mem hnd hmem

/-- Witness for the amended C4: on `[['C', 'A']]` with dictionary `{"ca"}`, the
spelled original-case string "CA" appears exactly once as a key. -/
theorem c4_complete_exactly_once_witness :
    ((findWords (buildLexicon ["ca"]) [['C', 'A']]).map Prod.fst).count
      (pathWord [['C', 'A']] [(0, 0), (0, 1)]) = 1 :=
  c4_complete_exactly_once (buildLexicon ["ca"]) [['C', 'A']] [(0, 0), (0, 1)]
    (by decide) (by decide) (by decide)

/-- **C4 counterexample.** The claim as stated fails: on the uppercase grid
`[['C', 'A']]` with dictionary `{"ca"}`, the dictionary word "ca" is spellable
case-insensitively, yet the key "ca" does not appear at all (the key is the
original-case "CA"); and on the mixed-case grid `[['C', 'A'], ['c', 'a']]` the
same dictionary word yields four distinct keys, not exactly one. -/
theorem c4_counterexample :
    lexClosed (buildLexicon ["ca"]) ∧
    (buildLexicon ["ca"]).words.contains "ca" = true ∧
    simpleAdjPath [['C', 'A']] [(0, 0), (0, 1)] ∧
    jsToLower (pathWord [['C', 'A']] [(0, 0), (0, 1)]) = "ca" ∧
    ((findWords (buildLexicon ["ca"]) [['C', 'A']]).map Prod.fst).count "ca" = 0 ∧
    ((findWords (buildLexicon ["ca"]) [['C', 'A'], ['c', 'a']]).map Prod.fst).countP
      (fun k => jsToLower k == "ca") = 4 := by
  have h1 : findWords (buildLexicon ["ca"]) [['C', 'A']] = [("CA", [(0, 0), (0, 1)])] :=
    @findWords_eval (buildLexicon ["ca"]) [['C', 'A']] 2 [("CA", [(0, 0), (0, 1)])]
      (by decide) (by decide)
  have h2 : findWords (buildLexicon ["ca"]) [['C', 'A'], ['c', 'a']]
      = [("ca", [(1, 0), (1, 1)]), ("cA", [(1, 0), (0, 1)]),
         ("Ca", [(0, 0), (1, 1)]), ("CA", [(0, 0), (0, 1)])] :=
    @findWords_eval (buildLexicon ["ca"]) [['C', 'A'], ['c', 'a']] 4
      [("ca", [(1, 0), (1, 1)]), ("cA", [(1, 0), (0, 1)]),
       ("Ca", [(0, 0), (1, 1)]), ("CA", [(0, 0), (0, 1)])] (by decide) (by decide)
  refine ⟨by decide, by decide, by decide, by decide, ?_, ?_⟩
  · rw [h1]
    decide
  · rw [h2]
    decide

/-- **C10.** Result keys are case-sensitive original-case strings: on the
mixed-case grid `[['C', 'A'], ['c', 'a']]` with dictionary `{"ca"}`, the distinct
keys "CA" and "Ca" (among others) coexist, both lowercasing to the single
dictionary word "ca", and the key sequence holds no duplicates — deduplication
happens only on the exact accumulated string. -/
theorem c10_case_sensitive_keys :
    ("CA" ∈ (findWords (buildLexicon ["ca"]) [['C', 'A'], ['c', 'a']]).map Prod.fst) ∧
    ("Ca" ∈ (findWords (buildLexicon ["ca"]) [['C', 'A'], ['c', 'a']]).map Prod.fst) ∧
    ("CA" : String) ≠ "Ca" ∧ jsToLower "CA" = "ca" ∧ jsToLower "Ca" = "ca" ∧
    (buildLexicon ["ca"]).words = ["ca"] ∧
    ((findWords (buildLexicon ["ca"]) [['C', 'A'], ['c', 'a']]).map Prod.fst).Nodup := by
  have h2 : findWords (buildLexicon ["ca"]) [['C', 'A'], ['c', 'a']]
      = [("ca", [(1, 0), (1, 1)]), ("cA", [(1, 0), (0, 1)]),
         ("Ca", [(0, 0), (1, 1)]), ("CA", [(0, 0), (0, 1)])] :=
    @findWords_eval (buildLexicon ["ca"]) [['C', 'A'], ['c', 'a']] 4
      [("ca", [(1, 0), (1, 1)]), ("cA", [(1, 0), (0, 1)]),
       ("Ca", [(0, 0), (1, 1)]), ("CA", [(0, 0), (0, 1)])] (by decide) (by decide)
  rw [h2]
  refine ⟨by decide, by decide, by decide, by decide, by decide, by decide, by decide⟩

/-- Ghost instrumentation of the direction loop: the chronological list of
`(word, path)` records the loop would write, independent of the store contents. -/
def dfsLoopFD (step : Int → Int → GPath → String → List String →
      Option (List (String × GPath)))
    (g : Grid) (x y : Int) (path : GPath) (word : String) (visited : List String) :
    List (Int × Int) → Option (List (String × GPath))
  | [] => some []
  | (dx, dy) :: rest =>
    if skipMove g visited (x + dx) (y + dy) then
      dfsLoopFD step g x y path word visited rest
    else
      match step (x + dx) (y + dy) (path ++ [(x + dx, y + dy)])
          (word.push (cellAt g (x + dx) (y + dy)))
          (visited ++ [coordKey (x + dx) (y + dy)]) with
      | none => none
      | some ds1 =>
        match dfsLoopFD step g x y path word visited rest with
        | none => none
        | some ds2 => some (ds1 ++ ds2)

/-- Ghost instrumentation of the search: the chronological record trace of the
same recursion as `dfsF` — a record is written exactly when `dfs` calls
`words.set(currentWord, path)`, in the same order. -/
def dfsFD (lex : Lexicon) (g : Grid) :
    Nat → Int → Int → GPath → String → List String → Option (List (String × GPath))
  | 0, _, _, _, _, _ => none
  | fuel + 1, x, y, path, word, visited =>
    if !(lex.prefixes.contains (jsToLower word)) then some []
    else
      match dfsLoopFD (dfsFD lex g fuel) g x y path word visited directions with
      | none => none
      | some ds =>
        some ((if lex.words.contains (jsToLower word) then [(word, path)] else []) ++ ds)

/-- Ghost instrumentation of one start cell. -/
def startCellFD (lex : Lexicon) (g : Grid) (fuel : Nat) (i j : Nat)
    (ds : List (String × GPath)) : Option (List (String × GPath)) :=
  let ch := (g.getD i []).getD j ' '
  if cellUsable ch then
    (dfsFD lex g fuel i j [((i : Int), (j : Int))] (String.singleton ch)
      [coordKey i j]).map (fun ds' => ds ++ ds')
  else some ds

/-- The chronological discovery trace of the whole traversal, fuel-indexed. -/
def discoveriesF (lex : Lexicon) (g : Grid) (fuel : Nat) :
    Option (List (String × GPath)) :=
  (List.range g.length).foldl (fun acc i =>
    (List.range (g.getD i []).length).foldl (fun acc2 j =>
      acc2.bind (startCellFD lex g fuel i j)) acc) (some [])

/-- The chronological list of all `(word, path)` recordings the traversal makes,
in discovery order. -/
def discoveries (lex : Lexicon) (g : Grid) : List (String × GPath) :=
  (discoveriesF lex g (usableCount g)).getD []

/-- Replaying a record trace into a store. -/
def replay (ds : List (String × GPath)) (m : WordsMap) : WordsMap :=
  ds.foldl (fun m e => mapSet m e.1 e.2) m

/-- The path of the chronologically last discovery of a word, if any. -/
def lastDiscovery (ds : List (String × GPath)) (w : String) : Option GPath :=
  ds.foldl (fun acc e => if e.1 = w then some e.2 else acc) none

theorem replay_append (ds1 ds2 : List (String × GPath)) (m : WordsMap) :
    replay (ds1 ++ ds2) m = replay ds2 (replay ds1 m) := by
  rw [replay, replay, replay, List.foldl_append]

/-- The store-threading loop is the replay of the record trace of the loop. -/
theorem dfsLoopFD_sim (lex : Lexicon) (g : Grid) (fuel : Nat)
    (IH : ∀ x y path word visited words,
      dfsF lex g fuel x y path word visited words
        = (dfsFD lex g fuel x y path word visited).map (fun ds => replay ds words)) :
    ∀ (dirs : List (Int × Int)) (x y : Int) (path : GPath) (word : String)
      (visited : List String) (words : WordsMap),
      dfsLoopF (dfsF lex g fuel) g x y path word visited words dirs
        = (dfsLoopFD (dfsFD lex g fuel) g x y path word visited dirs).map
            (fun ds => replay ds words) := by
  intro dirs
  induction dirs with
  | nil =>
    intro x y path word visited words
    rw [dfsLoopF, dfsLoopFD]
    rfl
  | cons d rest ih =>
    obtain ⟨dx, dy⟩ := d
    intro x y path word visited words
    rw [dfsLoopF, dfsLoopFD]
    by_cases hsm : skipMove g visited (x + dx) (y + dy) = true
    · rw [if_pos hsm, if_pos hsm]
      exact ih x y path word visited words
    · rw [if_neg hsm, if_neg hsm]
      rw [IH (x + dx) (y + dy) (path ++ [(x + dx, y + dy)])
        (word.push (cellAt g (x + dx) (y + dy)))
        (visited ++ [coordKey (x + dx) (y + dy)]) words]
      cases hchild : dfsFD lex g fuel (x + dx) (y + dy) (path ++ [(x + dx, y + dy)])
          (word.push (cellAt g (x + dx) (y + dy)))
          (visited ++ [coordKey (x + dx) (y + dy)]) with
      | none => rfl
      | some ds1 =>
        rw [Option.map_some']
        show dfsLoopF (dfsF lex g fuel) g x y path word visited (replay ds1 words) rest = _
        rw [ih x y path word visited (replay ds1 words)]
        cases hrest : dfsLoopFD (dfsFD lex g fuel) g x y path word visited rest with
        | none => rfl
        | some ds2 =>
          rw [Option.map_some', Option.map_some']
          show some (replay ds2 (replay ds1 words)) = some (replay (ds1 ++ ds2) words)
          rw [replay_append]

/-- The store-threading search is the replay of its record trace. -/
theorem dfsFD_sim (lex : Lexicon) (g : Grid) :
    ∀ (fuel : Nat) (x y : Int) (path : GPath) (word : String)
      (visited : List String) (words : WordsMap),
      dfsF lex g fuel x y path word visited words
        = (dfsFD lex g fuel x y path word visited).map (fun ds => replay ds words) := by
  intro fuel
  induction fuel with
  | zero =>
    intro x y path word visited words
    rfl
  | succ fuel ih =>
    intro x y path word visited words
    rw [dfsF, dfsFD]
    by_cases hp : (!(lex.prefixes.contains (jsToLower word))) = true
    · rw [if_pos hp, if_pos hp]
      rfl
    · rw [if_neg hp, if_neg hp]
      rw [dfsLoopFD_sim lex g fuel ih directions x y path word visited
        (if lex.words.contains (jsToLower word) = true then mapSet words word path
          else words)]
      cases hloop : dfsLoopFD (dfsFD lex g fuel) g x y path word visited directions with
      | none => rfl
      | some ds =>
        rw [Option.map_some', Option.map_some']
        show some (replay ds _) = some (replay _ words)
        rw [replay_append]
        by_cases hw : lex.words.contains (jsToLower word) = true
        · rw [if_pos hw, if_pos hw]
          rfl
        · rw [if_neg hw, if_neg hw]
          rfl

/-- Two `Option`-threaded folds related pointwise by a map stay related. -/
theorem foldl_option_map {A C B : Type} (φ : C → A)
    (F : Option A → B → Option A) (G : Option C → B → Option C)
    (hFnone : ∀ b, F none b = none) (hGnone : ∀ b, G none b = none) :
    ∀ (l : List B), (∀ b ∈ l, ∀ c, F (some (φ c)) b = (G (some c) b).map φ) →
      ∀ c, l.foldl F (some (φ c)) = (l.foldl G (some c)).map φ := by
  intro l
  induction l with
  | nil => intro _ c; rfl
  | cons b bs ih =>
    intro hstep c
    rw [List.foldl_cons, List.foldl_cons, hstep b (List.mem_cons_self _ _) c]
    cases hG : G (some c) b with
    | none =>
      rw [Option.map_none', foldl_option_none F hFnone, foldl_option_none G hGnone]
      rfl
    | some c1 =>
      rw [Option.map_some']
      exact ih (fun b' hb' => hstep b' (List.mem_cons_of_mem _ hb')) c1

theorem startCellF_simD (lex : Lexicon) (g : Grid) (fuel i j : Nat)
    (ds : List (String × GPath)) :
    startCellF lex g fuel i j (replay ds []) =
      (startCellFD lex g fuel i j ds).map (fun ds' => replay ds' []) := by
  rw [startCellF, startCellFD]
  by_cases hu : cellUsable ((g.getD i []).getD j ' ') = true
  · rw [if_pos hu, if_pos hu]
    rw [dfsFD_sim lex g fuel i j [((i : Int), (j : Int))]
      (String.singleton ((g.getD i []).getD j ' ')) [coordKey i j] (replay ds [])]
    cases hd : dfsFD lex g fuel i j [((i : Int), (j : Int))]
        (String.singleton ((g.getD i []).getD j ' ')) [coordKey i j] with
    | none => rfl
    | some ds' =>
      rw [Option.map_some', Option.map_some', Option.map_some']
      show some (replay ds' (replay ds [])) = some (replay (ds ++ ds') [])
      rw [replay_append]
  · rw [if_neg hu, if_neg hu]
    rfl

/-- The whole traversal's store is the replay of the whole discovery trace. -/
theorem findWordsMapF_simD (lex : Lexicon) (g : Grid) (fuel : Nat) :
    findWordsMapF lex g fuel = (discoveriesF lex g fuel).map (fun ds => replay ds []) := by
  rw [findWordsMapF, discoveriesF]
  have hinnerF : ∀ (i : Nat) (js : List Nat),
      js.foldl (fun acc2 j => acc2.bind (startCellF lex g fuel i j)) none = none :=
    fun i js => foldl_option_none _ (fun _ => rfl) js
  have hinnerG : ∀ (i : Nat) (js : List Nat),
      js.foldl (fun acc2 j => acc2.bind (startCellFD lex g fuel i j)) none = none :=
    fun i js => foldl_option_none _ (fun _ => rfl) js
  have h0 : (some ([] : WordsMap))
      = some ((fun ds => replay ds []) ([] : List (String × GPath))) := rfl
  rw [h0]
  refine foldl_option_map (fun ds => replay ds []) _ _
    (fun i => hinnerF i _) (fun i => hinnerG i _) (List.range g.length) ?_ []
  intro i _ c
  refine foldl_option_map (fun ds => replay ds []) _ _
    (fun _ => rfl) (fun _ => rfl) (List.range (g.getD i []).length) ?_ c
  intro j _ c2
  show startCellF lex g fuel i j (replay c2 []) = (startCellFD lex g fuel i j c2).map _
  exact startCellF_simD lex g fuel i j c2

theorem findWordsMap_eq_replay (lex : Lexicon) (g : Grid) :
    findWordsMap lex g = replay (discoveries lex g) [] := by
  have hb := findWordsMapF_eq lex g
  rw [findWordsMapF_simD lex g (usableCount g)] at hb
  cases hd : discoveriesF lex g (usableCount g) with
  | none =>
    rw [hd] at hb
    cases hb
  | some ds =>
    rw [hd, Option.map_some'] at hb
    rw [discoveries, hd]
    exact (Option.some.inj hb).symm

theorem lookup_mapSet (m : WordsMap) (k : String) (v : GPath) (w : String) :
    (mapSet m k v).lookup w = if k = w then some v else m.lookup w := by
  induction m with
  | nil =>
    rw [mapSet]
    by_cases hk : k = w
    · subst hk
      rw [if_pos rfl]
      simp [List.lookup]
    · rw [if_neg hk]
      have hbeq : (w == k) = false := by
        rw [beq_eq_false_iff_ne]
        exact fun hw => hk hw.symm
      simp [List.lookup, hbeq]
  | cons e rest ih =>
    obtain ⟨k', v'⟩ := e
    rw [mapSet]
    by_cases hk' : k' = k
    · subst hk'
      rw [if_pos rfl]
      by_cases hk : k' = w
      · subst hk
        rw [if_pos rfl]
        simp [List.lookup]
      · rw [if_neg hk]
        have hbeq : (w == k') = false := by
          rw [beq_eq_false_iff_ne]
          exact fun hw => hk hw.symm
        simp [List.lookup, hbeq]
    · rw [if_neg hk']
      by_cases hkw : k' = w
      · subst hkw
        rw [if_neg (fun h => hk' h.symm)]
        simp [List.lookup]
      · have hbeq : (w == k') = false := by
          rw [beq_eq_false_iff_ne]
          exact fun hw => hkw hw.symm
        by_cases hk : k = w
        · subst hk
          rw [if_pos rfl]
          simp [List.lookup, hbeq, ih]
        · rw [if_neg hk]
          simp [List.lookup, hbeq, ih, if_neg hk]

theorem lastDiscovery_foldl (w : String) :
    ∀ (ds : List (String × GPath)) (a : Option GPath),
      ds.foldl (fun acc e => if e.1 = w then some e.2 else acc) a
        = (lastDiscovery ds w).or a := by
  intro ds
  induction ds with
  | nil =>
    intro a
    rfl
  | cons e ds ih =>
    intro a
    rw [List.foldl_cons, ih]
    have hR : lastDiscovery (e :: ds) w
        = (lastDiscovery ds w).or (if e.1 = w then some e.2 else none) := by
      rw [lastDiscovery, List.foldl_cons]
      exact ih (if e.1 = w then some e.2 else none)
    rw [hR, Option.or_assoc]
    by_cases he : e.1 = w
    · rw [if_pos he, if_pos he]
      rfl
    · rw [if_neg he, if_neg he]
      rfl

theorem lookup_replay (w : String) :
    ∀ (ds : List (String × GPath)) (m : WordsMap),
      (replay ds m).lookup w = (lastDiscovery ds w).or (m.lookup w) := by
  intro ds
  induction ds with
  | nil =>
    intro m
    rfl
  | cons e ds ih =>
    intro m
    show (replay ds (mapSet m e.1 e.2)).lookup w = _
    rw [ih (mapSet m e.1 e.2), lookup_mapSet]
    have hR : lastDiscovery (e :: ds) w
        = (lastDiscovery ds w).or (if e.1 = w then some e.2 else none) := by
      rw [lastDiscovery, List.foldl_cons]
      exact lastDiscovery_foldl w ds (if e.1 = w then some e.2 else none)
    rw [hR, Option.or_assoc]
    by_cases he : e.1 = w
    · rw [if_pos he, if_pos he]
      rfl
    · rw [if_neg he, if_neg he]
      rfl

/-- **C1 (amended).** At most one path is stored per distinct word, but the LAST
path discovered under the traversal order wins, not the first: the entry of each
word in the result map is the path of the chronologically last `words.set`
recording of that word (each recording overwrites the previous path), and the
sorted result sequence is a permutation of that map. -/
theorem c1_last_path_wins (lex : Lexicon) (g : Grid) (w : String) :
    (findWordsMap lex g).lookup w = lastDiscovery (discoveries lex g) w ∧
    (findWords lex g).Perm (findWordsMap lex g) := by
  constructor
  · rw [findWordsMap_eq_replay, lookup_replay]
    show (lastDiscovery (discoveries lex g) w).or none = _
    rw [Option.or_none]
  · rw [findWords]
    exact sortByCmp_perm jsCmp (findWordsMap lex g)

/-- **C1 counterexample.** On the grid `[['A', 'A']]` with dictionary `{"a"}`, the
word "A" is discovered first at start cell `(0, 0)` with path `[(0, 0)]` (row-major
order), yet the returned map carries the later-discovered path `[(0, 1)]`: the
recorded path for a word IS overwritten by a later-discovered path
(`words.set(currentWord, path)` replaces the stored value unconditionally). -/
theorem c1_counterexample :
    discoveries (buildLexicon ["a"]) [['A', 'A']] = [("A", [(0, 0)]), ("A", [(0, 1)])] ∧
    findWords (buildLexicon ["a"]) [['A', 'A']] = [("A", [(0, 1)])] ∧
    findWords (buildLexicon ["a"]) [['A', 'A']] ≠ [("A", [(0, 0)])] := by
  have he : findWords (buildLexicon ["a"]) [['A', 'A']] = [("A", [(0, 1)])] :=
    @findWords_eval (buildLexicon ["a"]) [['A', 'A']] 2 [("A", [(0, 1)])]
      (by decide) (by decide)
  refine ⟨by decide, he, ?_⟩
  rw [he]
  decide

end SquaredleSolver
